import Mathlib

/-!
Verification development for the NL-2-SQL benchmark harness.

The Python sources are modelled by a shallow embedding on `List Char` /
plain data. Each regex substitution of `SQLNormalizer.normalize` is
implemented as a one-pass scanner with the exact leftmost, non-rescanning
semantics of `re.sub`.
-/

namespace NLSQL

/-- The ASCII whitespace characters matched by Python's regex `\s` and by
`str.strip` / `str.split` (space, tab, newline, carriage return, vertical
tab, form feed). -/
def pySpace (c : Char) : Bool :=
  c = ' ' || c = '\t' || c = '\n' || c = '\r' || c = '\x0b' || c = '\x0c'

/-- The operator characters of the class `[=<>!]` in
`re.sub(r'\s*([=<>!]+)\s*', r' \1 ', sql)`. -/
def isOpCh (c : Char) : Bool :=
  c = '=' || c = '<' || c = '>' || c = '!'

/-- Models Python `str.lower` characterwise (ASCII case mapping). -/
def pyLowerCh (c : Char) : Char := c.toLower

/-- Scanner for `re.sub(r'--.*$', '', sql, flags=re.MULTILINE)`:
in mode `false` we copy characters until a `--` is found; from there
(mode `true`) characters are dropped up to (excluding) the next newline,
since `.` does not match `\n` and MULTILINE `$` matches just before `\n`. -/
def slcAux : Bool → List Char → List Char
  | _, [] => []
  | true, c :: rest =>
    if c = '\n' then '\n' :: slcAux false rest else slcAux true rest
  | false, [c] => [c]
  | false, c :: d :: rest =>
    if c = '-' ∧ d = '-' then slcAux true rest
    else c :: slcAux false (d :: rest)

/-- `re.sub(r'--.*$', '', sql, flags=re.MULTILINE)`. -/
def stripLineComments (l : List Char) : List Char := slcAux false l

/-- Whether the list contains the closing delimiter `*/` (so that the
non-greedy `/\*.*?\*/` can match). -/
def hasClose : List Char → Bool
  | [] => false
  | [_] => false
  | c :: d :: rest => (c = '*' && d = '/') || hasClose (d :: rest)

/-- Scanner for `re.sub(r'/\*.*?\*/', '', sql, flags=re.DOTALL)` with
`re.sub`'s non-rescanning semantics: in mode `false` characters are
copied until a `/*` that has a later `*/` is found (if no `*/` follows, no
match can start at or after this position, so the remainder is returned
unchanged); in mode `true` characters are dropped up to and including the
first `*/`, after which scanning resumes (without reexamining the output). -/
def bsAux : Bool → List Char → List Char
  | false, [] => []
  | false, [c] => [c]
  | false, c :: d :: rest =>
    if c = '/' ∧ d = '*' then
      (if hasClose rest then bsAux true rest else c :: d :: rest)
    else c :: bsAux false (d :: rest)
  | true, [] => []
  | true, [_] => []
  | true, c :: d :: rest =>
    if c = '*' ∧ d = '/' then bsAux false rest else bsAux true (d :: rest)

/-- `re.sub(r'/\*.*?\*/', '', sql, flags=re.DOTALL)`. -/
def stripBlockComments (l : List Char) : List Char := bsAux false l

/-- `re.sub(r'\s+', ' ', sql)`: every maximal run of whitespace becomes a
single space. -/
def collapseWs : List Char → List Char
  | [] => []
  | [a] => if pySpace a then [' '] else [a]
  | a :: b :: rest =>
    if pySpace a then
      (if pySpace b then collapseWs (b :: rest) else ' ' :: collapseWs (b :: rest))
    else a :: collapseWs (b :: rest)

/-- Python `str.strip()` (left half). -/
def lstripWs (l : List Char) : List Char := l.dropWhile pySpace

/-- Python `str.strip()` (right half). -/
def rstripWs (l : List Char) : List Char := (l.reverse.dropWhile pySpace).reverse

/-- Python `str.strip()`. -/
def pyStripWs (l : List Char) : List Char := rstripWs (lstripWs l)

/-- Python `str.rstrip(';')`: drop the maximal trailing run of semicolons. -/
def rstripSemi (l : List Char) : List Char :=
  (l.reverse.dropWhile (fun c => c = ';')).reverse

/-- `sql.replace('"', "'")`. -/
def unifyQuotes (l : List Char) : List Char :=
  l.map (fun c => if c = '"' then '\'' else c)

/-- Scanner states for the operator-spacing substitution. -/
inductive OpScan
  | norm
  | inOp
  | skip

/-- Scanner for `re.sub(r'\s*([=<>!]+)\s*', r' \1 ', sql)`.
A match is a (possibly empty) whitespace run, a maximal contiguous run of
operator characters, then a (possibly empty) whitespace run; it is replaced
by the operator run with exactly one space on each side.
In mode `norm`, pending whitespace is accumulated (it is emitted verbatim
only if no operator follows it); on an operator character the pending
whitespace is dropped (consumed by the leading `\s*`) and mode `inOp`
collects the operator run; leaving `inOp` emits the replacement, and a
following whitespace run is consumed in mode `skip` (the trailing `\s*`). -/
def opAux : OpScan → List Char → List Char → List Char → List Char
  | .norm, pend, _, [] => pend.reverse
  | .norm, pend, _, c :: rest =>
    if pySpace c then opAux .norm (c :: pend) [] rest
    else if isOpCh c then opAux .inOp [] [c] rest
    else pend.reverse ++ c :: opAux .norm [] [] rest
  | .inOp, _, ops, [] => ' ' :: (ops.reverse ++ [' '])
  | .inOp, _, ops, c :: rest =>
    if isOpCh c then opAux .inOp [] (c :: ops) rest
    else if pySpace c then ' ' :: (ops.reverse ++ ' ' :: opAux .skip [] [] rest)
    else ' ' :: (ops.reverse ++ ' ' :: c :: opAux .norm [] [] rest)
  | .skip, _, _, [] => []
  | .skip, _, _, c :: rest =>
    if pySpace c then opAux .skip [] [] rest
    else if isOpCh c then opAux .inOp [] [c] rest
    else c :: opAux .norm [] [] rest

/-- `re.sub(r'\s*([=<>!]+)\s*', r' \1 ', sql)`. -/
def opSpacing (l : List Char) : List Char := opAux .norm [] [] l

/-- Generic scanner for `re.sub(r'\s*X\s*', out, sql)` where `X` is the
single character `t` and `out` the replacement: pending whitespace is
dropped when `t` follows it, `out` is emitted, and the trailing whitespace
run is consumed (mode `true`). -/
def sepAux (t : Char) (out : List Char) : Bool → List Char → List Char → List Char
  | _, pend, [] => pend.reverse
  | true, _, c :: rest =>
    if pySpace c then sepAux t out true [] rest
    else if c = t then out ++ sepAux t out true [] rest
    else c :: sepAux t out false [] rest
  | false, pend, c :: rest =>
    if pySpace c then sepAux t out false (c :: pend) rest
    else if c = t then out ++ sepAux t out true [] rest
    else pend.reverse ++ c :: sepAux t out false [] rest

/-- `re.sub(r'\s*,\s*', ', ', sql)`. -/
def commaSpacing (l : List Char) : List Char := sepAux ',' [',', ' '] false [] l

/-- `re.sub(r'\s*\(\s*', ' (', sql)`. -/
def parenLSpacing (l : List Char) : List Char := sepAux '(' [' ', '('] false [] l

/-- `re.sub(r'\s*\)\s*', ') ', sql)`. -/
def parenRSpacing (l : List Char) : List Char := sepAux ')' [')', ' '] false [] l

/-- `' '.join(sql.split())`: `str.split()` splits on whitespace runs and
drops empty pieces, so joining with single spaces collapses every
whitespace run to one space and removes leading/trailing whitespace. -/
def finalClean (l : List Char) : List Char := pyStripWs (collapseWs l)

/-- The body of `SQLNormalizer.normalize` after the emptiness guard:
lowercase, strip line and block comments, collapse whitespace, strip and
drop trailing semicolons, unify quotes, space operators, commas and
parentheses, and perform the final cleanup (including the trailing
`.strip()` of the `return`). -/
def normalizeList (s : List Char) : List Char :=
  pyStripWs (finalClean (parenRSpacing (parenLSpacing (commaSpacing (opSpacing
    (unifyQuotes (rstripSemi (pyStripWs (collapseWs
      (stripBlockComments (stripLineComments (s.map pyLowerCh))))))))))))

end NLSQL

namespace SQLNormalizer

/-- `SQLNormalizer.normalize`: `if not sql: return ""` followed by the
substitution pipeline. -/
def normalize (s : String) : String :=
  if s = "" then "" else String.mk (NLSQL.normalizeList s.data)

/-- `SQLNormalizer.exact_match`. -/
def exact_match (gold predicted : String) : Bool :=
  normalize gold = normalize predicted

end SQLNormalizer

namespace NLSQL

/-- A fetched result row: each cell is either SQL `NULL` (Python `None`) or
a value carrying its Python `str()` rendering. -/
abbrev Row := List (Option String)

/-- What the SQLite engine does for one `execute_sql` call (the behaviour
of `sqlite3.connect` / `cursor.execute` / `fetchall` for a given statement
and database). -/
inductive RunOutcome
  /-- `connect`, `execute` and `fetchall` succeed and yield these rows. -/
  | ok (rows : List Row)
  /-- `sqlite3.connect` itself raises `sqlite3.Error` (no connection is opened). -/
  | connectErr (msg : String)
  /-- executing the statement raises `sqlite3.Error` (after the connection opened). -/
  | sqlErr (msg : String)
  /-- executing the statement raises some other exception (after the connection opened). -/
  | otherErr (msg : String)

/-- The execution environment of an `ExecutionEvaluator`: whether
`get_database_path` resolves a file for a `db_id`, and what the engine does
for each `(sql, db_id)` pair. -/
structure ExecEnv where
  dbFound : String → Bool
  run : String → String → RunOutcome

/-- Connection lifecycle events, recorded in order. -/
inductive ConnEvent
  | opened
  | closed
deriving DecidableEq

/-- Python `f"...{x}..."` rendering of an `Optional[str]`. -/
def fmtOptMsg : Option String → String
  | some s => s
  | none => "None"

end NLSQL

namespace ExecutionEvaluator

open NLSQL

/-- `ExecutionEvaluator.execute_sql`, instrumented with the list of
connection events it performs.  Mirrors the source: a missing database is
an early return (no connection); on success the connection is opened,
the rows fetched, `conn.close()` called and `(True, results, None)`
returned; the two `except` clauses turn an engine-level or unexpected
exception into a `(False, None, message)` return — the `try` block has no
`finally`, so no `close` happens on those paths. -/
def execute_sqlTr (env : ExecEnv) (sql db_id : String) :
    (Bool × Option (List Row) × Option String) × List ConnEvent :=
  if env.dbFound db_id = false then
    ((false, none, some ("Database not found: " ++ db_id)), [])
  else
    match env.run sql db_id with
    | .ok rows => ((true, some rows, none), [.opened, .closed])
    | .connectErr e => ((false, none, some ("SQL Error: " ++ e)), [])
    | .sqlErr e => ((false, none, some ("SQL Error: " ++ e)), [.opened])
    | .otherErr e => ((false, none, some ("Execution Error: " ++ e)), [.opened])

/-- `ExecutionEvaluator.execute_sql` (result only). -/
def execute_sql (env : ExecEnv) (sql db_id : String) :
    Bool × Option (List Row) × Option String :=
  (execute_sqlTr env sql db_id).1

/-- One normalized cell: `str(v).lower().strip() if v is not None else "null"`. -/
def normCell : Option String → String
  | none => "null"
  | some v => String.mk (pyStripWs (v.data.map pyLowerCh))

/-- One normalized row (a fixed-order tuple of cell strings). -/
def normRow (r : Row) : List String := r.map normCell

/-- Python `tuple.__le__` on tuples of strings: lexicographic elementwise
comparison, a proper prefix being smaller. -/
def rowLE : List String → List String → Bool
  | [], _ => true
  | _ :: _, [] => false
  | a :: as, b :: bs => if a < b then true else if a = b then rowLE as bs else false

/-- `normalized.sort()`: Python's stable sort; on a total order the sorted
list is uniquely determined, modelled by `mergeSort`. -/
def sortRows (l : List (List String)) : List (List String) := l.mergeSort rowLE

/-- Python `repr` of one (quote-free, printable) string. -/
def pyReprStr (s : String) : String := "'" ++ s ++ "'"

/-- Python `repr` of a tuple of strings (note the trailing comma of a
1-tuple). -/
def pyReprTuple : List String → String
  | [] => "()"
  | [a] => "(" ++ pyReprStr a ++ ",)"
  | l => "(" ++ String.intercalate ", " (l.map pyReprStr) ++ ")"

/-- Python `str` of a list of tuples of strings. -/
def pyReprRows (l : List (List String)) : String :=
  "[" ++ String.intercalate ", " (l.map pyReprTuple) ++ "]"

/-- `ExecutionEvaluator.normalize_results`: `None` becomes `""`; otherwise
every cell is stringified/case-folded/trimmed, rows sorted, and the list
serialized with `str(...)`. -/
def normalize_results : Option (List Row) → String
  | none => ""
  | some rows => pyReprRows (sortRows (rows.map normRow))

/-- `ExecutionEvaluator.results_match`. -/
def results_match (r1 r2 : Option (List Row)) : Bool :=
  normalize_results r1 = normalize_results r2

/-- `len(x) if x else 0` for the row-count reporting (an empty list is
falsy, so this equals the length in every case). -/
def rowCount : Option (List Row) → Nat
  | none => 0
  | some l => l.length

/-- `ExecutionEvaluator.evaluate`: execute the gold query (failure is the
`(False, None, ...)` outcome), then the predicted query (failure is
`(True, False, ...)`), then compare canonicalized result sets. -/
def evaluate (env : ExecEnv) (gold_sql predicted_sql db_id : String) :
    Bool × Option Bool × String :=
  let g := execute_sql env gold_sql db_id
  if g.1 = false then
    (false, none, "Gold query failed: " ++ fmtOptMsg g.2.2)
  else
    let p := execute_sql env predicted_sql db_id
    if p.1 = false then
      (true, some false, "Predicted query failed: " ++ fmtOptMsg p.2.2)
    else
      if results_match g.2.1 p.2.1 then (true, some true, "Results match")
      else
        (true, some false,
          "Results differ (gold: " ++ toString (rowCount g.2.1) ++
            " rows, predicted: " ++ toString (rowCount p.2.1) ++ " rows)")

/-- Module-level `evaluate_execution` convenience function. -/
def evaluate_execution (env : ExecEnv) (gold_sql predicted_sql db_id : String) :
    Option Bool × String :=
  let r := evaluate env gold_sql predicted_sql db_id
  if r.1 = false then (none, r.2.2) else (r.2.1, r.2.2)

end ExecutionEvaluator

/-- `BenchmarkResult` dataclass. -/
structure BenchmarkResult where
  question : String
  db_id : String
  gold_sql : String
  predicted_sql : String
  exact_match : Bool
  execution_match : Option Bool := none
  llm_judge_match : Option Bool := none
  llm_judge_score : Int := 0
  llm_judge_reasoning : String := ""
  is_valid_sql : Bool := true
  error : Option String := none
  latency_ms : ℚ := 0

/-- `BenchmarkReport` dataclass (running counters plus the ordered result
list). -/
structure BenchmarkReport where
  total_samples : Nat := 0
  exact_match_count : Nat := 0
  execution_match_count : Nat := 0
  llm_judge_match_count : Nat := 0
  llm_judge_total_score : Int := 0
  valid_sql_count : Nat := 0
  error_count : Nat := 0
  total_latency_ms : ℚ := 0
  results : List BenchmarkResult := []

/-- The `execution_accuracy` property: `executed` counts the results whose
`execution_match` is set (`is not None`); the ratio is `0.0` when that
count is zero, else `execution_match_count / executed`.  Real division is
modelled on `ℚ`. -/
def BenchmarkReport.execution_accuracy (r : BenchmarkReport) : ℚ :=
  let executed := r.results.countP (fun x => x.execution_match.isSome)
  if executed = 0 then 0 else (r.execution_match_count : ℚ) / (executed : ℚ)

namespace SpiderBenchmark

open NLSQL

/-- The judge collaborator's reply
(`judge_sql_equivalence(...)` result: `is_equivalent`, `score`, `reasoning`). -/
structure JudgeVerdict where
  is_equivalent : Bool
  score : Int
  reasoning : String

/-- One dataset example as consumed by `_evaluate_sample`
(`sample['question']`, `sample['db_id']`, `sample['query']`). -/
structure Sample where
  question : String
  db_id : String
  query : String

/-- The orchestrator's collaborators: the candidate pipeline (returning
either the predicted SQL or the message of the exception it raised,
together with the elapsed milliseconds measured around the call), the
`sqlparse`-based validity check used by `_is_valid_sql`, the judge client,
the loader's `get_schema`, and the SQLite world under the configured
databases directory. -/
structure BenchEnv where
  pipeline : String → String → (Except String String) × ℚ
  validSql : String → Bool
  judge : String → String → String → JudgeVerdict
  schemaOf : String → String
  execEnv : ExecEnv

/-- The orchestrator's configuration flags (`_use_llm_judge`,
`_use_execution`, `_databases_dir`). -/
structure BenchConfig where
  useLlmJudge : Bool
  useExecution : Bool
  databasesDir : Option String

/-- Python truthiness of `self._databases_dir` (`None` and `""` are falsy). -/
def dbDirTruthy : Option String → Bool
  | none => false
  | some s => s ≠ ""

/-- `SpiderBenchmark._evaluate_llm_judge`, returning the updated result
and report plus whether `judge_sql_equivalence` was invoked.  An exact
match short-circuits with maximal score; otherwise the judge runs only for
syntactically valid SQL. -/
def evaluateLlmJudge (env : BenchEnv) (result : BenchmarkResult) (em : Bool)
    (report : BenchmarkReport) : BenchmarkResult × BenchmarkReport × Bool :=
  if em then
    ({ result with llm_judge_match := some true, llm_judge_score := 5,
                   llm_judge_reasoning := "Exact match" },
     { report with llm_judge_match_count := report.llm_judge_match_count + 1,
                   llm_judge_total_score := report.llm_judge_total_score + 5 },
     false)
  else if result.is_valid_sql then
    let jr := env.judge result.question result.gold_sql result.predicted_sql
    ({ result with llm_judge_match := some jr.is_equivalent,
                   llm_judge_score := jr.score, llm_judge_reasoning := jr.reasoning },
     { report with
         llm_judge_match_count :=
           report.llm_judge_match_count + (if jr.is_equivalent then 1 else 0),
         llm_judge_total_score := report.llm_judge_total_score + jr.score },
     true)
  else (result, report, false)

/-- `SpiderBenchmark._evaluate_execution`: store the tri-state outcome in
`execution_match` and count only a truthy (`True`) match. -/
def evaluateExecution (env : BenchEnv) (result : BenchmarkResult)
    (report : BenchmarkReport) : BenchmarkResult × BenchmarkReport :=
  let r := ExecutionEvaluator.evaluate_execution env.execEnv
    result.gold_sql result.predicted_sql result.db_id
  ({ result with execution_match := r.1 },
   if r.1 = some true then
     { report with execution_match_count := report.execution_match_count + 1 }
   else report)

/-- `evaluate_exact_match` (the exact-match evaluator module). -/
def evaluate_exact_match (gold_sql predicted_sql : String) : Bool :=
  SQLNormalizer.exact_match gold_sql predicted_sql

/-- `SpiderBenchmark._evaluate_sample`: on pipeline success compute exact
match and validity, run the enabled optional evaluators, then bump the
exact-match and valid-SQL counters; on pipeline failure produce the error
result and bump `error_count`.  The returned `Bool` records whether the
judge was invoked. -/
def evaluateSample (cfg : BenchConfig) (env : BenchEnv) (sample : Sample)
    (report : BenchmarkReport) : (BenchmarkResult × BenchmarkReport) × Bool :=
  let schema := env.schemaOf sample.db_id
  match env.pipeline sample.question schema with
  | (.ok predicted_sql, latency_ms) =>
    let em := evaluate_exact_match sample.query predicted_sql
    let is_valid := env.validSql predicted_sql
    let result : BenchmarkResult :=
      { question := sample.question, db_id := sample.db_id,
        gold_sql := sample.query, predicted_sql := predicted_sql,
        exact_match := em, is_valid_sql := is_valid, latency_ms := latency_ms }
    let step1 :=
      if cfg.useLlmJudge then evaluateLlmJudge env result em report
      else (result, report, false)
    let step2 :=
      if cfg.useExecution && dbDirTruthy cfg.databasesDir then
        evaluateExecution env step1.1 step1.2.1
      else (step1.1, step1.2.1)
    let rep3 :=
      if em then
        { step2.2 with exact_match_count := step2.2.exact_match_count + 1 }
      else step2.2
    let rep4 :=
      if is_valid then { rep3 with valid_sql_count := rep3.valid_sql_count + 1 }
      else rep3
    ((step2.1, rep4), step1.2.2)
  | (.error e, latency_ms) =>
    (({ question := sample.question, db_id := sample.db_id,
        gold_sql := sample.query, predicted_sql := "",
        exact_match := false, is_valid_sql := false,
        error := some e, latency_ms := latency_ms },
      { report with error_count := report.error_count + 1 }),
      false)

/-- One iteration of the `run` loop: evaluate the sample, append the
result, bump `total_samples` and accumulate latency. -/
def runStep (cfg : BenchConfig) (env : BenchEnv) (sample : Sample)
    (report : BenchmarkReport) : BenchmarkReport :=
  let r := (evaluateSample cfg env sample report).1
  { r.2 with results := r.2.results ++ [r.1],
             total_samples := r.2.total_samples + 1,
             total_latency_ms := r.2.total_latency_ms + r.1.latency_ms }

/-- The `run` per-example loop over the sampled examples. -/
def runLoop (cfg : BenchConfig) (env : BenchEnv) :
    List Sample → BenchmarkReport → BenchmarkReport
  | [], report => report
  | s :: rest, report => runLoop cfg env rest (runStep cfg env s report)

/-- The counter/length invariants of a report (spec §3): `total_samples`
matches the number of results and every counter counts the results
satisfying its predicate. -/
def reportInv (rep : BenchmarkReport) : Prop :=
  rep.total_samples = rep.results.length ∧
  rep.exact_match_count = rep.results.countP (fun r => r.exact_match) ∧
  rep.execution_match_count = rep.results.countP (fun r => r.execution_match = some true) ∧
  rep.llm_judge_match_count = rep.results.countP (fun r => r.llm_judge_match = some true) ∧
  rep.valid_sql_count = rep.results.countP (fun r => r.is_valid_sql) ∧
  rep.error_count = rep.results.countP (fun r => r.error.isSome)

end SpiderBenchmark

namespace SpiderDataLoader

/-- The per-database table metadata record of `tables.json` as read by
`_build_schema_string`. -/
structure TableInfo where
  table_names_original : List String
  column_names_original : List (Int × String)
  column_types : List String
  primary_keys : List Nat

/-- Python `str.upper` (ASCII case mapping). -/
def pyUpper (s : String) : String := String.mk (s.data.map Char.toUpper)

/-- One entry of `columns_by_table`. -/
structure ColEntry where
  name : String
  type : String
  idx : Nat
deriving DecidableEq

/-- Appending to `columns_by_table[table_idx]`, with Python dict semantics
(insertion-ordered keys, per-key lists in append order). -/
def dictAppend (d : List (Int × List ColEntry)) (k : Int) (v : ColEntry) :
    List (Int × List ColEntry) :=
  match d with
  | [] => [(k, [v])]
  | (k0, vs) :: rest =>
    if k0 = k then (k0, vs ++ [v]) :: rest else (k0, vs) :: dictAppend rest k v

/-- `columns_by_table.get(k, [])`. -/
def dictGet (d : List (Int × List ColEntry)) (k : Int) : List ColEntry :=
  match d with
  | [] => []
  | (k0, vs) :: rest => if k0 = k then vs else dictGet rest k

/-- The entry built for the enumerated column `(idx, (table_idx, col_name))`:
`column_types[idx] if idx < len(column_types) else 'TEXT'`. -/
def mkCol (ti : TableInfo) (idx : Nat) (col_name : String) : ColEntry :=
  { name := col_name, type := ti.column_types.getD idx "TEXT", idx := idx }

/-- The `columns_by_table` dict: fold over `enumerate(column_names)`,
skipping the sentinel `table_idx == -1`. -/
def columnsByTable (ti : TableInfo) : List (Int × List ColEntry) :=
  ti.column_names_original.enum.foldl
    (fun d p =>
      if p.2.1 = -1 then d
      else dictAppend d p.2.1 (mkCol ti p.1 p.2.2))
    []

/-- One column definition line:
`f"    {col['name']} {col_type}{pk}"` with `col_type = col['type'].upper()`
and `pk = " PRIMARY KEY" if col['idx'] in primary_keys else ""`. -/
def colDef (ti : TableInfo) (col : ColEntry) : String :=
  "    " ++ col.name ++ " " ++ pyUpper col.type ++
    (if col.idx ∈ ti.primary_keys then " PRIMARY KEY" else "")

/-- One `CREATE TABLE` statement. -/
def createStmt (ti : TableInfo) (table_name : String) (cols : List ColEntry) :
    String :=
  "CREATE TABLE " ++ table_name ++ " (\n" ++
    String.intercalate ",\n" (cols.map (colDef ti)) ++ "\n);"

/-- `SpiderDataLoader._build_schema_string`: build the dict, then for each
enumerated table name emit a statement when its column list is nonempty,
and join with a blank line. -/
def _build_schema_string (ti : TableInfo) : String :=
  let d := columnsByTable ti
  String.intercalate "\n\n"
    (ti.table_names_original.enum.foldl
      (fun parts p =>
        let cols := dictGet d (p.1 : Int)
        if cols = [] then parts else parts ++ [createStmt ti p.2 cols])
      [])

/-- The schema text as the spec describes it: for each table (in order),
the columns owned by it are the enumerated columns whose owning table
index equals the table's index — which skips the sentinel `-1` entry —
each typed with `TEXT` when its index is out of range of the type list;
every table owning at least one column contributes one
`CREATE TABLE name (col type[ PRIMARY KEY][, ...]);` statement, and the
statements are joined with a blank line.  A pure function of the
metadata, defined without the intermediate dict. -/
def specSchemaText (ti : TableInfo) : String :=
  String.intercalate "\n\n"
    (ti.table_names_original.enum.filterMap (fun p =>
      let cols := ti.column_names_original.enum.filterMap (fun q =>
        if q.2.1 = (p.1 : Int) then some (mkCol ti q.1 q.2.2) else none)
      if cols = [] then none else some (createStmt ti p.2 cols)))

end SpiderDataLoader

/-- A result with a given `execution_match` outcome (used to build concrete
reports). -/
def resEx (m : Option Bool) : BenchmarkResult :=
  { question := "q", db_id := "d", gold_sql := "g", predicted_sql := "p",
    exact_match := false, execution_match := m }

/-- A concrete report with 10 samples of which 4 have `execution_match`
set, 3 of them matches (the scenario named by the spec). -/
def sampleReportTen : BenchmarkReport :=
  { total_samples := 10, execution_match_count := 3,
    results :=
      [resEx (some true), resEx (some true), resEx (some true),
       resEx (some false), resEx none, resEx none, resEx none,
       resEx none, resEx none, resEx none] }

/-- An engine environment that always succeeds with one fixed row. -/
def execEnvOk : NLSQL.ExecEnv :=
  { dbFound := fun _ => true,
    run := fun _ _ => NLSQL.RunOutcome.ok [[some "1"]] }

/-- An engine environment where executing any statement raises an
engine-level error (after the connection opened). -/
def execEnvSqlErr : NLSQL.ExecEnv :=
  { dbFound := fun _ => true,
    run := fun _ _ => NLSQL.RunOutcome.sqlErr "near error" }

/-- An orchestrator environment whose candidate pipeline always raises. -/
def envPipeFail : SpiderBenchmark.BenchEnv :=
  { pipeline := fun _ _ => (Except.error "boom", 5),
    validSql := fun _ => true,
    judge := fun _ _ _ => ⟨true, 4, "ok"⟩,
    schemaOf := fun _ => "schema",
    execEnv := execEnvOk }

/-- An orchestrator environment whose candidate pipeline always predicts
`"select 1"`. -/
def envPipeOk : SpiderBenchmark.BenchEnv :=
  { pipeline := fun _ _ => (Except.ok "select 1", 5),
    validSql := fun _ => true,
    judge := fun _ _ _ => ⟨true, 4, "ok"⟩,
    schemaOf := fun _ => "schema",
    execEnv := execEnvOk }

/-- A sample whose gold SQL normalizes identically to the fixed
prediction `"select 1"`. -/
def sampleEm : SpiderBenchmark.Sample := ⟨"q", "db", "SELECT  1"⟩

namespace NLSQL

/-! ### Infrastructure for reasoning about the normalizer

A string whose whitespace consists of isolated spaces is represented as a
list of characters each paired with the number of spaces that follow it
(`RepN`).  Every spacing substitution of the pipeline acts on such a
representation as a map over adjacent character pairs, which is what makes
the second pass of `normalize` reproduce the first. -/

/-- Whether the two-character sequence `a b` occurs (adjacently). -/
def hasPair (a b : Char) : List Char → Bool
  | [] => false
  | [_] => false
  | x :: y :: rest => (x = a && y = b) || hasPair a b (y :: rest)

/-- The last character that is not whitespace. -/
def lastNonWs (l : List Char) : Option Char :=
  (l.reverse.dropWhile pySpace).head?

/-- The intermediate string of `normalize` right after
`sql.strip().rstrip(';')` (before quote unification). -/
def semiStage (s : List Char) : List Char :=
  rstripSemi (pyStripWs (collapseWs (stripBlockComments (stripLineComments
    (s.map pyLowerCh)))))

/-- A character paired with the number of spaces following it. -/
abbrev RepN := List (Char × Nat)

/-- Render a rep as a string. -/
def bodyR : RepN → List Char
  | [] => []
  | (c, n) :: rest => c :: (List.replicate n ' ' ++ bodyR rest)

/-- Render a rep with `k` leading spaces. -/
def ofRepN (k : Nat) (r : RepN) : List Char := List.replicate k ' ' ++ bodyR r

/-- All rep characters are non-whitespace. -/
def validR (r : RepN) : Prop := ∀ p ∈ r, pySpace p.1 = false

/-- Parse a string into a rep (exact when the string starts with a
non-space character and all its whitespace consists of plain spaces). -/
def toRep : List Char → RepN
  | [] => []
  | c :: rest =>
    (c, (rest.takeWhile (fun x => x = ' ')).length) ::
      toRep (rest.dropWhile (fun x => x = ' '))
termination_by l => l.length
decreasing_by
  simp only [List.length_cons]
  exact Nat.lt_succ_of_le (List.dropWhile_sublist _).length_le

/-- Apply a gap function to every adjacent pair of a rep and a final-gap
function to its last entry. -/
def pwApply (g : Char → Nat → Char → Nat) (lg : Char → Nat → Nat) : RepN → RepN
  | [] => []
  | [(c, n)] => [(c, lg c n)]
  | (c, n) :: (d, m) :: rest => (c, g c n d) :: pwApply g lg ((d, m) :: rest)

/-- How the operator substitution transforms the gap between adjacent
characters `c` and `d`: inside a contiguous operator run the gap stays 0;
two operator runs separated by whitespace get the closing and opening
space of two matches; an operator next to a non-operator gets exactly one
space; other gaps are untouched. -/
def opNG (c : Char) (n : Nat) (d : Char) : Nat :=
  if isOpCh c then (if isOpCh d then (if n = 0 then 0 else 2) else 1)
  else (if isOpCh d then 1 else n)

/-- The trailing gap after the last character under the operator
substitution. -/
def opLastG (c : Char) (n : Nat) : Nat := if isOpCh c then 1 else n

/-- The leading-space count produced by the operator substitution. -/
def opLead (k : Nat) : RepN → Nat
  | [] => k
  | (c, _) :: _ => if isOpCh c then 1 else k

/-- How `re.sub(r'\s*t\s*', pre..t..post, sql)` transforms the gap between
adjacent characters (`pre`/`post` are the space counts of the replacement
around `t`). -/
def sepNG (t : Char) (pre post : Nat) (c : Char) (n : Nat) (d : Char) : Nat :=
  if c = t then post + (if d = t then pre else 0)
  else if d = t then pre else n

/-- The trailing gap of the single-character substitution. -/
def sepLastG (t : Char) (post : Nat) (c : Char) (n : Nat) : Nat :=
  if c = t then post else n

/-- The leading-space count of the single-character substitution. -/
def sepLead (t : Char) (pre : Nat) (k : Nat) : RepN → Nat
  | [] => k
  | (c, _) :: _ => if c = t then pre else k

/-- The combined gap transformation of the four spacing substitutions
followed by the final whitespace collapse (which clamps gaps to one
space). -/
def gAll (c : Char) (n : Nat) (d : Char) : Nat :=
  min (sepNG ')' 0 1 c (sepNG '(' 1 0 c (sepNG ',' 0 1 c (opNG c n d) d) d) d) 1

/-- The full pairwise description of one pass of the spacing
substitutions plus cleanup (the cleanup drops the trailing gap). -/
def pwGaps : RepN → RepN := pwApply gAll (fun _ _ => 0)

/-- The string rendered after an operator block's trailing gap, given the
gap value and the remaining rep (used to describe the operator scanner's
output). -/
def afterOp : Nat → RepN → List Char
  | _, [] => [' ']
  | n, (d, m) :: rest =>
    if isOpCh d then
      (if n = 0 then d :: afterOp m rest
       else ' ' :: ' ' :: d :: afterOp m rest)
    else ' ' :: d :: ofRepN (opLead m rest) (pwApply opNG opLastG rest)

/-- Consecutive characters of a rep that touch (zero gap). -/
def zeroPair (a b : Char) : RepN → Bool
  | [] => false
  | [_] => false
  | (c, n) :: (d, m) :: rest =>
    (decide (n = 0) && (c = a && d = b)) || zeroPair a b ((d, m) :: rest)

/-- Every whitespace character of the list is a plain space. -/
def onlySp (l : List Char) : Prop := ∀ c ∈ l, pySpace c = true → c = ' '

/-- Every character is fixed by lowercasing. -/
def allLowered (l : List Char) : Prop := ∀ c ∈ l, pyLowerCh c = c

/-- The character of the last rep entry. -/
def lastCharR (r : RepN) : Option Char := (r.map Prod.fst).getLast?

end NLSQL

-- Sanity probes of the embedding against the Python implementation's
-- observed behaviour (these mirror concrete runs of the source pipeline).
example : SQLNormalizer.normalize "SELECT  *  FROM t;" = "select * from t" := by decide
example : SQLNormalizer.normalize "a=b" = "a = b" := by decide
example : SQLNormalizer.normalize "a!=b" = "a != b" := by decide
example : SQLNormalizer.normalize "a ,b,( c )" = "a, b, (c)" := by decide
example : SQLNormalizer.normalize "a -- comment\nb" = "a b" := by decide
example : SQLNormalizer.normalize "a /* x */ b" = "a b" := by decide
example : SQLNormalizer.normalize "x\"y\"" = "x'y'" := by decide
example : SQLNormalizer.normalize "-/*x*/-" = "--" := by decide
example : SQLNormalizer.normalize "--" = "" := by decide
example : SQLNormalizer.normalize "a; ;" = "a;" := by decide
example : SQLNormalizer.normalize "a;" = "a" := by decide
example : SQLNormalizer.normalize "a),(b" = "a) , (b" := by decide
example : SQLNormalizer.normalize "a=,b" = "a =, b" := by decide
example : SQLNormalizer.normalize "a(=b)" = "a (= b)" := by decide
example : SQLNormalizer.normalize "= =" = "= =" := by decide
example : SQLNormalizer.normalize "==a" = "== a" := by decide
example : SQLNormalizer.normalize "//*a*/*x*/" = "/*x*/" := by decide
example : SQLNormalizer.normalize "" = "" := by decide
example : SQLNormalizer.normalize "  " = "" := by decide

/-! ## Properties of the execution evaluator -/

namespace ExecutionEvaluator

theorem rowLE_total : ∀ a b : List String, (rowLE a b || rowLE b a) = true := by
  intro a
  induction a with
  | nil => intro b; simp [rowLE]
  | cons x xs ih =>
    intro b
    cases b with
    | nil => simp [rowLE]
    | cons y ys =>
      rcases lt_trichotomy x y with h | h | h
      · simp [rowLE, h]
      · subst h
        have := ih ys
        simp [rowLE, lt_irrefl] at this ⊢
        exact this
      · have hne : ¬ x < y := not_lt_of_gt h
        have hne2 : ¬ x = y := fun he => absurd (he ▸ h) (lt_irrefl x)
        simp [rowLE, hne, hne2, h]

theorem rowLE_trans :
    ∀ a b c : List String, rowLE a b = true → rowLE b c = true → rowLE a c = true := by
  intro a
  induction a with
  | nil => intro b c _ _; simp [rowLE]
  | cons x xs ih =>
    intro b c hab hbc
    cases b with
    | nil => simp [rowLE] at hab
    | cons y ys =>
      cases c with
      | nil => simp [rowLE] at hbc
      | cons z zs =>
        by_cases hxy : x < y
        · by_cases hyz : y < z
          · simp [rowLE, lt_trans hxy hyz]
          · simp only [rowLE] at hbc
            rw [if_neg hyz] at hbc
            by_cases hyze : y = z
            · subst hyze; simp [rowLE, hxy]
            · simp [hyze] at hbc
        · simp only [rowLE] at hab
          rw [if_neg hxy] at hab
          by_cases hxye : x = y
          · subst hxye
            simp only [if_pos rfl] at hab
            by_cases hxz : x < z
            · simp [rowLE, hxz]
            · simp only [rowLE] at hbc
              rw [if_neg hxz] at hbc
              by_cases hxze : x = z
              · subst hxze
                simp only [if_pos rfl] at hbc
                simp [rowLE, lt_irrefl, ih ys zs hab hbc]
              · simp [hxze] at hbc
          · simp [hxye] at hab

theorem rowLE_antisymm :
    ∀ a b : List String, rowLE a b = true → rowLE b a = true → a = b := by
  intro a
  induction a with
  | nil =>
    intro b _ hba
    cases b with
    | nil => rfl
    | cons y ys => simp [rowLE] at hba
  | cons x xs ih =>
    intro b hab hba
    cases b with
    | nil => simp [rowLE] at hab
    | cons y ys =>
      by_cases hxy : x < y
      · have : ¬ y < x := lt_asymm hxy
        have hne : ¬ y = x := fun he => absurd (he ▸ hxy) (lt_irrefl _)
        simp [rowLE, this, hne] at hba
      · simp only [rowLE] at hab
        rw [if_neg hxy] at hab
        by_cases hxye : x = y
        · subst hxye
          simp only [if_pos rfl] at hab
          simp only [rowLE, lt_irrefl, if_neg (lt_irrefl x), if_pos rfl] at hba
          exact congrArg (x :: ·) (ih ys hab hba)
        · simp [hxye] at hab

/-- Sorting with `rowLE` is invariant under permutation of the input. -/
theorem sortRows_eq_of_perm {l l' : List (List String)} (h : l.Perm l') :
    sortRows l = sortRows l' := by
  haveI : IsAntisymm (List String) (fun a b => rowLE a b = true) := ⟨rowLE_antisymm⟩
  have hp : (l.mergeSort rowLE).Perm (l'.mergeSort rowLE) :=
    ((List.mergeSort_perm l rowLE).trans h).trans (List.mergeSort_perm l' rowLE).symm
  exact List.eq_of_perm_of_sorted hp
    (List.sorted_mergeSort rowLE_trans rowLE_total l)
    (List.sorted_mergeSort rowLE_trans rowLE_total l')

end ExecutionEvaluator

/-- The row-permutation invariance of `normalize_results`, as a standalone
lemma. -/
theorem normalize_results_perm (rows rows' : List NLSQL.Row) (h : rows.Perm rows') :
    ExecutionEvaluator.normalize_results (some rows) =
      ExecutionEvaluator.normalize_results (some rows') := by
  simp only [ExecutionEvaluator.normalize_results]
  rw [ExecutionEvaluator.sortRows_eq_of_perm (h.map ExecutionEvaluator.normRow)]

/-- C8. `normalize_results` is invariant under permutation of the rows
(so `results_match` is row-order-independent), and in particular the rows
`[("a",), ("b",)]` and `[("b",), ("a",)]` match. -/
theorem normalize_results_row_order_independent :
    (∀ rows rows' : List NLSQL.Row, rows.Perm rows' →
      ExecutionEvaluator.normalize_results (some rows) =
        ExecutionEvaluator.normalize_results (some rows')) ∧
    ExecutionEvaluator.results_match (some [[some "a"], [some "b"]])
      (some [[some "b"], [some "a"]]) = true := by
  refine ⟨normalize_results_perm, ?_⟩
  have h := normalize_results_perm [[some "a"], [some "b"]] [[some "b"], [some "a"]]
    (by decide)
  simp [ExecutionEvaluator.results_match, h]


/-- C10. `normalize_results` maps the absent result set `None` to `""` but
an empty row list to the non-empty string `"[]"`, so an absent result set
never matches an empty one. -/
theorem normalize_results_none_vs_empty :
    ExecutionEvaluator.normalize_results none = "" ∧
    ExecutionEvaluator.normalize_results (some []) = "[]" ∧
    ExecutionEvaluator.results_match none (some []) = false := by
  refine ⟨rfl, ?_, ?_⟩
  · simp [ExecutionEvaluator.normalize_results, ExecutionEvaluator.sortRows,
      ExecutionEvaluator.pyReprRows, String.intercalate]
  · simp [ExecutionEvaluator.results_match, ExecutionEvaluator.normalize_results,
      ExecutionEvaluator.sortRows, ExecutionEvaluator.pyReprRows, String.intercalate]

/-- C2 (counterexample). A call of `execute_sql` in an environment where
the database resolves and executing the statement raises an engine-level
error opens a connection but never closes it: the claim "every call that
opens a connection closes it on every exit path" is false of the code. -/
theorem execute_sql_leaves_connection_open_on_error :
    NLSQL.ConnEvent.opened ∈
      (ExecutionEvaluator.execute_sqlTr
        { dbFound := fun _ => true, run := fun _ _ => .sqlErr "near error" }
        "SELECT" "db").2 ∧
    NLSQL.ConnEvent.closed ∉
      (ExecutionEvaluator.execute_sqlTr
        { dbFound := fun _ => true, run := fun _ _ => .sqlErr "near error" }
        "SELECT" "db").2 := by
  constructor <;> simp [ExecutionEvaluator.execute_sqlTr]

/-- C2 (amended). `execute_sql` closes the connection on the successful
path (the event trace is exactly open-then-close); on every failure
outcome the trace is either empty (no connection was opened: missing
database or `connect` itself raised) or a single unmatched open (the
statement raised an engine-level or unexpected error and the `except`
clauses return without closing). -/
theorem execute_sql_connection_events (env : NLSQL.ExecEnv) (sql db_id : String) :
    ((ExecutionEvaluator.execute_sql env sql db_id).1 = true →
      (ExecutionEvaluator.execute_sqlTr env sql db_id).2 =
        [NLSQL.ConnEvent.opened, NLSQL.ConnEvent.closed]) ∧
    ((ExecutionEvaluator.execute_sql env sql db_id).1 = false →
      (ExecutionEvaluator.execute_sqlTr env sql db_id).2 = [] ∨
      (ExecutionEvaluator.execute_sqlTr env sql db_id).2 = [NLSQL.ConnEvent.opened]) := by
  unfold ExecutionEvaluator.execute_sql ExecutionEvaluator.execute_sqlTr
  by_cases hdb : env.dbFound db_id = false
  · simp [hdb]
  · simp only [hdb, if_false]
    cases env.run sql db_id <;> simp

/-- C3. `ExecutionEvaluator.evaluate` satisfies the three-way contract:
a failing gold query yields `(False, None, message)`; a succeeding gold
query with a failing predicted query yields `(True, False, message)`; two
succeeding queries yield `(True, m, message)` with `m` the equality of the
canonicalized result sets.  Totality of the model (every engine outcome,
including engine-level and unexpected errors, is already folded into
`execute_sql`'s tri-state return) reflects that no exception escapes to
the caller. -/
theorem evaluate_three_way_contract (env : NLSQL.ExecEnv) (gold predicted db_id : String) :
    ((ExecutionEvaluator.execute_sql env gold db_id).1 = false →
      ExecutionEvaluator.evaluate env gold predicted db_id =
        (false, none, "Gold query failed: " ++
          NLSQL.fmtOptMsg (ExecutionEvaluator.execute_sql env gold db_id).2.2)) ∧
    ((ExecutionEvaluator.execute_sql env gold db_id).1 = true →
      (ExecutionEvaluator.execute_sql env predicted db_id).1 = false →
      ExecutionEvaluator.evaluate env gold predicted db_id =
        (true, some false, "Predicted query failed: " ++
          NLSQL.fmtOptMsg (ExecutionEvaluator.execute_sql env predicted db_id).2.2)) ∧
    ((ExecutionEvaluator.execute_sql env gold db_id).1 = true →
      (ExecutionEvaluator.execute_sql env predicted db_id).1 = true →
      (ExecutionEvaluator.evaluate env gold predicted db_id).1 = true ∧
      (ExecutionEvaluator.evaluate env gold predicted db_id).2.1 =
        some (ExecutionEvaluator.results_match
          (ExecutionEvaluator.execute_sql env gold db_id).2.1
          (ExecutionEvaluator.execute_sql env predicted db_id).2.1)) := by
  refine ⟨?_, ?_, ?_⟩
  · intro hg
    simp [ExecutionEvaluator.evaluate, hg]
  · intro hg hp
    simp [ExecutionEvaluator.evaluate, hg, hp]
  · intro hg hp
    by_cases hm : ExecutionEvaluator.results_match
        (ExecutionEvaluator.execute_sql env gold db_id).2.1
        (ExecutionEvaluator.execute_sql env predicted db_id).2.1 = true
    · simp [ExecutionEvaluator.evaluate, hg, hp, hm]
    · simp [ExecutionEvaluator.evaluate, hg, hp, hm,
        Bool.not_eq_true _ ▸ hm]

/-- C4. `execution_accuracy` is `0.0` when no result has `execution_match`
set and otherwise divides `execution_match_count` by the number of results
with `execution_match` set (not by `total_samples`); the concrete report
with 10 samples, 4 of them executed and 3 matching, has accuracy `3/4`. -/
theorem execution_accuracy_denominator :
    (∀ rep : BenchmarkReport,
      rep.results.countP (fun x => x.execution_match.isSome) = 0 →
        rep.execution_accuracy = 0) ∧
    (∀ rep : BenchmarkReport,
      rep.results.countP (fun x => x.execution_match.isSome) ≠ 0 →
        rep.execution_accuracy = (rep.execution_match_count : ℚ) /
          (rep.results.countP (fun x => x.execution_match.isSome) : ℚ)) ∧
    sampleReportTen.total_samples = 10 ∧
    sampleReportTen.results.countP (fun x => x.execution_match.isSome) = 4 ∧
    sampleReportTen.execution_match_count = 3 ∧
    sampleReportTen.execution_accuracy = 3 / 4 := by
  refine ⟨?_, ?_, rfl, by decide, rfl, ?_⟩
  · intro rep h
    simp [BenchmarkReport.execution_accuracy, h]
  · intro rep h
    simp [BenchmarkReport.execution_accuracy, h]
  · have h4 : sampleReportTen.results.countP (fun x => x.execution_match.isSome) = 4 := by
      decide
    have h3 : sampleReportTen.execution_match_count = 3 := rfl
    simp only [BenchmarkReport.execution_accuracy, h4, h3]
    norm_num

/-! ## Properties of the orchestrator -/

namespace SpiderBenchmark

/-- `_evaluate_llm_judge` touches only the three judge fields of the
result and only the two judge counters of the report. -/
theorem evaluateLlmJudge_fields (env : BenchEnv) (result : BenchmarkResult)
    (em : Bool) (report : BenchmarkReport) :
    (evaluateLlmJudge env result em report).1.exact_match = result.exact_match ∧
    (evaluateLlmJudge env result em report).1.is_valid_sql = result.is_valid_sql ∧
    (evaluateLlmJudge env result em report).1.error = result.error ∧
    (evaluateLlmJudge env result em report).1.execution_match = result.execution_match ∧
    (evaluateLlmJudge env result em report).1.latency_ms = result.latency_ms ∧
    (evaluateLlmJudge env result em report).1.predicted_sql = result.predicted_sql ∧
    (evaluateLlmJudge env result em report).2.1.results = report.results ∧
    (evaluateLlmJudge env result em report).2.1.total_samples = report.total_samples ∧
    (evaluateLlmJudge env result em report).2.1.exact_match_count = report.exact_match_count ∧
    (evaluateLlmJudge env result em report).2.1.execution_match_count = report.execution_match_count ∧
    (evaluateLlmJudge env result em report).2.1.valid_sql_count = report.valid_sql_count ∧
    (evaluateLlmJudge env result em report).2.1.error_count = report.error_count ∧
    (evaluateLlmJudge env result em report).2.1.total_latency_ms = report.total_latency_ms := by
  unfold evaluateLlmJudge
  by_cases hem : em <;> by_cases hv : result.is_valid_sql <;> simp [hem, hv]

/-- `_evaluate_llm_judge` on a result whose judge outcome is still unset
bumps `llm_judge_match_count` exactly when the outcome it records is a
match. -/
theorem evaluateLlmJudge_count (env : BenchEnv) (result : BenchmarkResult)
    (em : Bool) (report : BenchmarkReport) (h : result.llm_judge_match = none) :
    (evaluateLlmJudge env result em report).2.1.llm_judge_match_count =
      report.llm_judge_match_count +
        (if (evaluateLlmJudge env result em report).1.llm_judge_match = some true
         then 1 else 0) := by
  unfold evaluateLlmJudge
  by_cases hem : em
  · simp [hem]
  · by_cases hv : result.is_valid_sql
    · by_cases he :
        (env.judge result.question result.gold_sql result.predicted_sql).is_equivalent <;>
        simp [hem, hv, he]
    · simp [hem, hv, h]

/-- `_evaluate_execution` touches only `execution_match` on the result and
only `execution_match_count` on the report. -/
theorem evaluateExecution_fields (env : BenchEnv) (result : BenchmarkResult)
    (report : BenchmarkReport) :
    (evaluateExecution env result report).1.exact_match = result.exact_match ∧
    (evaluateExecution env result report).1.is_valid_sql = result.is_valid_sql ∧
    (evaluateExecution env result report).1.error = result.error ∧
    (evaluateExecution env result report).1.llm_judge_match = result.llm_judge_match ∧
    (evaluateExecution env result report).1.llm_judge_score = result.llm_judge_score ∧
    (evaluateExecution env result report).1.latency_ms = result.latency_ms ∧
    (evaluateExecution env result report).1.predicted_sql = result.predicted_sql ∧
    (evaluateExecution env result report).2.results = report.results ∧
    (evaluateExecution env result report).2.total_samples = report.total_samples ∧
    (evaluateExecution env result report).2.exact_match_count = report.exact_match_count ∧
    (evaluateExecution env result report).2.llm_judge_match_count = report.llm_judge_match_count ∧
    (evaluateExecution env result report).2.valid_sql_count = report.valid_sql_count ∧
    (evaluateExecution env result report).2.error_count = report.error_count ∧
    (evaluateExecution env result report).2.total_latency_ms = report.total_latency_ms := by
  unfold evaluateExecution
  by_cases h : (ExecutionEvaluator.evaluate_execution env.execEnv
      result.gold_sql result.predicted_sql result.db_id).1 = some true <;> simp [h]

/-- `_evaluate_execution` bumps `execution_match_count` exactly when the
outcome it records is `True`. -/
theorem evaluateExecution_count (env : BenchEnv) (result : BenchmarkResult)
    (report : BenchmarkReport) :
    (evaluateExecution env result report).2.execution_match_count =
      report.execution_match_count +
        (if (evaluateExecution env result report).1.execution_match = some true
         then 1 else 0) := by
  unfold evaluateExecution
  by_cases h : (ExecutionEvaluator.evaluate_execution env.execEnv
      result.gold_sql result.predicted_sql result.db_id).1 = some true <;> simp [h]

end SpiderBenchmark

namespace SpiderBenchmark

/-- `_evaluate_sample` leaves the result list, `total_samples` and
`total_latency_ms` unchanged, and advances every counter by exactly the
contribution of the result it returns. -/
theorem evaluateSample_counters (cfg : BenchConfig) (env : BenchEnv)
    (sample : Sample) (rep : BenchmarkReport) :
    ((evaluateSample cfg env sample rep).1.2.results = rep.results) ∧
    ((evaluateSample cfg env sample rep).1.2.total_samples = rep.total_samples) ∧
    ((evaluateSample cfg env sample rep).1.2.total_latency_ms = rep.total_latency_ms) ∧
    ((evaluateSample cfg env sample rep).1.2.exact_match_count = rep.exact_match_count +
      (if (evaluateSample cfg env sample rep).1.1.exact_match then 1 else 0)) ∧
    ((evaluateSample cfg env sample rep).1.2.execution_match_count = rep.execution_match_count +
      (if (evaluateSample cfg env sample rep).1.1.execution_match = some true then 1 else 0)) ∧
    ((evaluateSample cfg env sample rep).1.2.llm_judge_match_count = rep.llm_judge_match_count +
      (if (evaluateSample cfg env sample rep).1.1.llm_judge_match = some true then 1 else 0)) ∧
    ((evaluateSample cfg env sample rep).1.2.valid_sql_count = rep.valid_sql_count +
      (if (evaluateSample cfg env sample rep).1.1.is_valid_sql then 1 else 0)) ∧
    ((evaluateSample cfg env sample rep).1.2.error_count = rep.error_count +
      (if (evaluateSample cfg env sample rep).1.1.error.isSome then 1 else 0)) := by
  rcases hp : env.pipeline sample.question (env.schemaOf sample.db_id) with ⟨out, lat⟩
  cases out with
  | error e => simp [evaluateSample, hp]
  | ok predicted_sql =>
    by_cases hj : cfg.useLlmJudge <;>
    by_cases hx : (cfg.useExecution && dbDirTruthy cfg.databasesDir) = true <;>
    by_cases hem : evaluate_exact_match sample.query predicted_sql <;>
    by_cases hv : env.validSql predicted_sql <;>
    by_cases he : (env.judge sample.question sample.query predicted_sql).is_equivalent <;>
    by_cases hm : (ExecutionEvaluator.evaluate_execution env.execEnv
      sample.query predicted_sql sample.db_id).1 = some true <;>
    simp [evaluateSample, hp, evaluateLlmJudge, evaluateExecution,
      hj, hx, hem, hv, he, hm]

end SpiderBenchmark

namespace SpiderBenchmark

/-- One loop iteration preserves the report invariants. -/
theorem runStep_inv (cfg : BenchConfig) (env : BenchEnv) (sample : Sample)
    (rep : BenchmarkReport) (h : reportInv rep) :
    reportInv (runStep cfg env sample rep) := by
  obtain ⟨h1, h2, h3, h4, h5, h6⟩ := h
  obtain ⟨c1, c2, c3, c4, c5, c6, c7, c8⟩ := evaluateSample_counters cfg env sample rep
  unfold runStep reportInv
  refine ⟨?_, ?_, ?_, ?_, ?_, ?_⟩ <;>
    simp [List.countP_append, c1, c2, c4, c5, c6, c7, c8, h1, h2, h3, h4, h5, h6,
      List.countP_cons]

/-- The loop preserves the report invariants from any invariant start. -/
theorem runLoop_inv (cfg : BenchConfig) (env : BenchEnv) (samples : List Sample)
    (rep : BenchmarkReport) (h : reportInv rep) :
    reportInv (runLoop cfg env samples rep) := by
  induction samples generalizing rep with
  | nil => exact h
  | cons s rest ih => exact ih _ (runStep_inv cfg env s rep h)

/-- The fresh report of `run` satisfies the invariants. -/
theorem reportInv_empty : reportInv {} := by
  unfold reportInv
  refine ⟨rfl, rfl, rfl, rfl, rfl, rfl⟩

/-- C5. After each iteration of the per-example loop (equivalently: after
processing any prefix of the sampled examples starting from the fresh
report), the report satisfies `total_samples = |results|` and each of the
five counters equals the number of appended results satisfying its
predicate. -/
theorem report_invariants_after_each_iteration (cfg : BenchConfig) (env : BenchEnv)
    (samples : List Sample) (i : Nat) :
    reportInv (runLoop cfg env (samples.take i) {}) :=
  runLoop_inv cfg env (samples.take i) {} reportInv_empty

/-- Every sample contributes exactly one appended result: the loop never
aborts early. -/
theorem runLoop_length (cfg : BenchConfig) (env : BenchEnv) (samples : List Sample)
    (rep : BenchmarkReport) :
    (runLoop cfg env samples rep).results.length = rep.results.length + samples.length := by
  induction samples generalizing rep with
  | nil => simp [runLoop]
  | cons s rest ih =>
    have hstep : (runStep cfg env s rep).results.length = rep.results.length + 1 := by
      unfold runStep
      simp [(evaluateSample_counters cfg env s rep).1]
    simp [runLoop, ih, hstep]
    omega

/-- C6. When the pipeline raises for an example, the recorded result has
empty predicted SQL, `exact_match = False`, `is_valid_sql = False` and the
captured error text; `error_count` is incremented by exactly one; and the
loop evaluates every sample regardless (one appended result per sample),
so subsequent examples are still evaluated. -/
theorem pipeline_failure_is_isolated (cfg : BenchConfig) (env : BenchEnv)
    (sample : Sample) (rep : BenchmarkReport) (e : String) (lat : ℚ)
    (h : env.pipeline sample.question (env.schemaOf sample.db_id) = (Except.error e, lat)) :
    (evaluateSample cfg env sample rep).1.1.predicted_sql = "" ∧
    (evaluateSample cfg env sample rep).1.1.exact_match = false ∧
    (evaluateSample cfg env sample rep).1.1.is_valid_sql = false ∧
    (evaluateSample cfg env sample rep).1.1.error = some e ∧
    (evaluateSample cfg env sample rep).1.2.error_count = rep.error_count + 1 ∧
    (∀ (samples : List Sample) (rep0 : BenchmarkReport),
      (runLoop cfg env samples rep0).results.length =
        rep0.results.length + samples.length) := by
  refine ⟨?_, ?_, ?_, ?_, ?_, runLoop_length cfg env⟩ <;> simp [evaluateSample, h]

/-- C7. With the LLM judge enabled, a result that is an exact match never
invokes the judge and is deemed equivalent with the maximum score; and the
judge is invoked exactly when the result is not an exact match but is
syntactically valid. -/
theorem llm_judge_short_circuit (cfg : BenchConfig) (env : BenchEnv)
    (sample : Sample) (rep : BenchmarkReport) (hj : cfg.useLlmJudge = true) :
    ((evaluateSample cfg env sample rep).1.1.exact_match = true →
      (evaluateSample cfg env sample rep).2 = false ∧
      (evaluateSample cfg env sample rep).1.1.llm_judge_match = some true ∧
      (evaluateSample cfg env sample rep).1.1.llm_judge_score = 5) ∧
    ((evaluateSample cfg env sample rep).2 = true ↔
      ((evaluateSample cfg env sample rep).1.1.exact_match = false ∧
       (evaluateSample cfg env sample rep).1.1.is_valid_sql = true)) := by
  rcases hp : env.pipeline sample.question (env.schemaOf sample.db_id) with ⟨out, lat⟩
  cases out with
  | error e => simp [evaluateSample, hp]
  | ok predicted_sql =>
    by_cases hx : (cfg.useExecution && dbDirTruthy cfg.databasesDir) = true <;>
    by_cases hem : evaluate_exact_match sample.query predicted_sql <;>
    by_cases hv : env.validSql predicted_sql <;>
    by_cases hm : (ExecutionEvaluator.evaluate_execution env.execEnv
      sample.query predicted_sql sample.db_id).1 = some true <;>
    simp [evaluateSample, hp, evaluateLlmJudge, evaluateExecution,
      hj, hx, hem, hv, hm]

end SpiderBenchmark

/-! ## Properties of the data loader -/

namespace SpiderDataLoader

theorem dictGet_dictAppend (d : List (Int × List ColEntry)) (k k' : Int) (v : ColEntry) :
    dictGet (dictAppend d k v) k' =
      if k' = k then dictGet d k' ++ [v] else dictGet d k' := by
  induction d with
  | nil =>
    by_cases h : k' = k
    · subst h; simp [dictAppend, dictGet]
    · have h2 : ¬ k = k' := fun he => h he.symm
      simp [dictAppend, dictGet, h, h2]
  | cons p rest ih =>
    obtain ⟨k0, vs⟩ := p
    simp only [dictAppend]
    by_cases h0 : k0 = k
    · subst h0
      simp only [if_pos rfl, dictGet]
      by_cases h : k' = k0
      · subst h; simp
      · have h2 : ¬ k0 = k' := fun he => h he.symm
        simp [h, h2]
    · simp only [if_neg h0, dictGet]
      by_cases h : k0 = k'
      · subst h
        have h2 : ¬ k0 = k := h0
        simp [fun he : k0 = k => h0 he]
      · simp [h, ih]

/-- The dict built by the grouping loop retrieves, for any non-sentinel
key, exactly the matching enumerated columns in order. -/
theorem dictGet_groupFold (ti : TableInfo) (l : List (Nat × (Int × String)))
    (d : List (Int × List ColEntry)) (k : Int) (hk : ¬ k = -1) :
    dictGet (l.foldl (fun d p =>
        if p.2.1 = -1 then d else dictAppend d p.2.1 (mkCol ti p.1 p.2.2)) d) k =
      dictGet d k ++ l.filterMap (fun q =>
        if q.2.1 = k then some (mkCol ti q.1 q.2.2) else none) := by
  induction l generalizing d with
  | nil => simp
  | cons q rest ih =>
    obtain ⟨idx, ti', name⟩ := q
    by_cases hs : ti' = -1
    · subst hs
      have h1 : ¬ ((-1 : Int) = k) := fun he => hk he.symm
      simp [ih, h1]
    · by_cases he : ti' = k
      · subst he
        simp only [List.foldl_cons, if_neg hs, List.filterMap_cons, if_pos rfl]
        rw [ih _, dictGet_dictAppend]
        simp
      · have h1 : ¬ (k = ti') := fun hh => he hh.symm
        simp only [List.foldl_cons, if_neg hs, List.filterMap_cons, if_neg he]
        rw [ih _, dictGet_dictAppend]
        simp [h1]

/-- The statement-accumulating loop is a `filterMap`. -/
theorem foldl_parts_if (g : Nat × String → List ColEntry) (f : Nat × String → String)
    (l : List (Nat × String)) (acc : List String) :
    l.foldl (fun parts p =>
      if g p = [] then parts else parts ++ [f p]) acc =
    acc ++ l.filterMap (fun p => if g p = [] then none else some (f p)) := by
  induction l generalizing acc with
  | nil => simp
  | cons p rest ih =>
    by_cases h : g p = [] <;> simp [h, ih]

/-- C9. Schema-text synthesis is a pure function of the table metadata and
equals the spec-level description: group the enumerated columns by owning
table index (the sentinel `-1` entry matches no table), emit one
`CREATE TABLE` statement per table owning at least one column (defaulting
an out-of-range type to `TEXT`, marking primary-key columns), and join the
statements with a blank line. -/
theorem build_schema_string_spec (ti : TableInfo) :
    _build_schema_string ti = specSchemaText ti := by
  have hget : ∀ p : Nat × String, dictGet (columnsByTable ti) (p.1 : Int) =
      ti.column_names_original.enum.filterMap (fun q =>
        if q.2.1 = (p.1 : Int) then some (mkCol ti q.1 q.2.2) else none) := by
    intro p
    have h := dictGet_groupFold ti ti.column_names_original.enum [] (p.1 : Int)
      (by omega)
    simpa [columnsByTable, dictGet] using h
  simp only [_build_schema_string, specSchemaText]
  rw [foldl_parts_if (fun p => dictGet (columnsByTable ti) (p.1 : Int))
    (fun p => createStmt ti p.2 (dictGet (columnsByTable ti) (p.1 : Int)))]
  simp only [List.nil_append]
  congr 1
  have hfun : (fun p : Nat × String =>
      if dictGet (columnsByTable ti) (p.1 : Int) = [] then (none : Option String)
      else some (createStmt ti p.2 (dictGet (columnsByTable ti) (p.1 : Int)))) =
      (fun p : Nat × String =>
        let cols := ti.column_names_original.enum.filterMap (fun q =>
          if q.2.1 = (p.1 : Int) then some (mkCol ti q.1 q.2.2) else none)
        if cols = [] then none else some (createStmt ti p.2 cols)) := by
    funext p
    rw [hget p]
  rw [hfun]

end SpiderDataLoader

/-! ## The second pass of the normalizer reproduces the first -/

namespace NLSQL

theorem pwApply_map_fst (g : Char → Nat → Char → Nat) (lg : Char → Nat → Nat) :
    ∀ r : RepN, (pwApply g lg r).map Prod.fst = r.map Prod.fst := by
  intro r
  induction r with
  | nil => rfl
  | cons p rest ih =>
    obtain ⟨c, n⟩ := p
    cases rest with
    | nil => rfl
    | cons q rest' =>
      obtain ⟨d, m⟩ := q
      simpa [pwApply] using ih

theorem validR_pwApply (g : Char → Nat → Char → Nat) (lg : Char → Nat → Nat)
    (r : RepN) (h : validR r) : validR (pwApply g lg r) := by
  intro p hp
  have hmem : p.1 ∈ (pwApply g lg r).map Prod.fst := List.mem_map_of_mem _ hp
  rw [pwApply_map_fst] at hmem
  obtain ⟨q, hq, hqe⟩ := List.mem_map.mp hmem
  have := h q hq
  rw [hqe] at this
  exact this

theorem pwApply_pwApply (g1 g2 : Char → Nat → Char → Nat)
    (lg1 lg2 : Char → Nat → Nat) :
    ∀ r : RepN, pwApply g2 lg2 (pwApply g1 lg1 r) =
      pwApply (fun c n d => g2 c (g1 c n d) d) (fun c n => lg2 c (lg1 c n)) r := by
  intro r
  induction r with
  | nil => rfl
  | cons p rest ih =>
    obtain ⟨c, n⟩ := p
    cases rest with
    | nil => rfl
    | cons q rest' =>
      obtain ⟨d, m⟩ := q
      cases rest' with
      | nil => simp [pwApply]
      | cons q' rest'' =>
        obtain ⟨e, j⟩ := q'
        simp only [pwApply] at ih ⊢
        rw [ih]

theorem replicate_cons_comm (j : Nat) (pend : List Char) :
    List.replicate j ' ' ++ ' ' :: pend = ' ' :: (List.replicate j ' ' ++ pend) := by
  calc List.replicate j ' ' ++ ' ' :: pend
      = (List.replicate j ' ' ++ [' ']) ++ pend := by simp
    _ = List.replicate (j + 1) ' ' ++ pend := by rw [← List.replicate_succ']
    _ = ' ' :: (List.replicate j ' ' ++ pend) := by rw [List.replicate_succ]; simp

theorem sepAux_false_spaces (t : Char) (out : List Char) (x : List Char) (j : Nat) :
    ∀ pend, sepAux t out false pend (List.replicate j ' ' ++ x) =
      sepAux t out false (List.replicate j ' ' ++ pend) x := by
  induction j with
  | zero => intro pend; simp
  | succ j ih =>
    intro pend
    have h1 : sepAux t out false pend (' ' :: (List.replicate j ' ' ++ x)) =
        sepAux t out false (' ' :: pend) (List.replicate j ' ' ++ x) := by
      simp [sepAux, pySpace]
    simp only [List.replicate_succ, List.cons_append, h1, ih]
    rw [replicate_cons_comm]

theorem sepAux_true_spaces (t : Char) (out : List Char) (x : List Char) (j : Nat) :
    sepAux t out true [] (List.replicate j ' ' ++ x) = sepAux t out true [] x := by
  induction j with
  | zero => simp
  | succ j ih =>
    simp only [List.replicate_succ, List.cons_append]
    rw [show sepAux t out true [] (' ' :: (List.replicate j ' ' ++ x)) =
        sepAux t out true [] (List.replicate j ' ' ++ x) by simp [sepAux, pySpace]]
    exact ih

theorem sepAux_true_eq_false (t : Char) (out : List Char) (ht : pySpace t = false)
    (r : RepN) (hr : validR r) :
    sepAux t out true [] (bodyR r) = sepAux t out false [] (bodyR r) := by
  cases r with
  | nil => rfl
  | cons p rest =>
    obtain ⟨c, n⟩ := p
    have hc : pySpace c = false := hr (c, n) (List.mem_cons_self _ _)
    by_cases hct : c = t <;> simp [bodyR, sepAux, hc, hct, ht]

theorem pwApply_nil (g : Char → Nat → Char → Nat) (lg : Char → Nat → Nat) :
    pwApply g lg [] = [] := rfl

theorem pwApply_single (g : Char → Nat → Char → Nat) (lg : Char → Nat → Nat)
    (c : Char) (n : Nat) : pwApply g lg [(c, n)] = [(c, lg c n)] := rfl

theorem pwApply_cons_cons (g : Char → Nat → Char → Nat) (lg : Char → Nat → Nat)
    (c : Char) (n : Nat) (d : Char) (m : Nat) (rest : RepN) :
    pwApply g lg ((c, n) :: (d, m) :: rest) =
      (c, g c n d) :: pwApply g lg ((d, m) :: rest) := rfl

theorem ofRepN_cons (k : Nat) (c : Char) (n : Nat) (r : RepN) :
    ofRepN k ((c, n) :: r) =
      List.replicate k ' ' ++ c :: (List.replicate n ' ' ++ bodyR r) := rfl

theorem ofRepN_nil (k : Nat) : ofRepN k [] = List.replicate k ' ' := by
  simp [ofRepN, bodyR]

theorem ofRepN_eq (k : Nat) (r : RepN) :
    ofRepN k r = List.replicate k ' ' ++ bodyR r := rfl

theorem sep_assemble (pre post q : Nat) (t c : Char) (x : List Char) (hct : c = t) :
    List.replicate pre ' ' ++ t :: List.replicate post ' ' ++
      (List.replicate q ' ' ++ x) =
    List.replicate pre ' ' ++ c :: (List.replicate (post + q) ' ' ++ x) := by
  subst hct
  simp only [List.cons_append, List.append_assoc, ← List.append_replicate_replicate]

/-- Simulation of the single-character spacing substitution on the rep
representation. -/
theorem sepAux_sim (t : Char) (pre post : Nat) (ht : pySpace t = false) :
    ∀ r : RepN, validR r → ∀ k,
      sepAux t (List.replicate pre ' ' ++ t :: List.replicate post ' ') false
        (List.replicate k ' ') (bodyR r) =
      ofRepN (sepLead t pre k r) (pwApply (sepNG t pre post) (sepLastG t post) r) := by
  intro r
  induction r with
  | nil =>
    intro _ k
    simp [bodyR, sepAux, ofRepN, sepLead, pwApply, List.reverse_replicate]
  | cons p rest ih =>
    intro hv k
    obtain ⟨c, n⟩ := p
    have hc : pySpace c = false := hv (c, n) (List.mem_cons_self _ _)
    have hvrest : validR rest := fun q hq => hv q (List.mem_cons_of_mem _ hq)
    by_cases hct : c = t
    · have step : sepAux t (List.replicate pre ' ' ++ t :: List.replicate post ' ')
          false (List.replicate k ' ') (bodyR ((c, n) :: rest)) =
          (List.replicate pre ' ' ++ t :: List.replicate post ' ') ++
            sepAux t (List.replicate pre ' ' ++ t :: List.replicate post ' ')
              true [] (List.replicate n ' ' ++ bodyR rest) := by
        simp [bodyR, sepAux, hc, hct, ht]
      rw [step, sepAux_true_spaces, sepAux_true_eq_false t _ ht rest hvrest]
      have hrec := ih hvrest 0
      simp only [List.replicate_zero] at hrec
      rw [hrec]
      cases rest with
      | nil =>
        have hl1 : sepLead t pre k [(c, n)] = pre := by simp [sepLead, hct]
        have hl0 : sepLead t pre 0 ([] : RepN) = 0 := rfl
        have hg : sepLastG t post c n = post := by simp [sepLastG, hct]
        rw [hl0, pwApply_single, pwApply_nil, ofRepN_nil, hl1, hg, ofRepN_cons]
        simp [hct, bodyR]
      | cons q rest' =>
        obtain ⟨d, m⟩ := q
        have hl1 : sepLead t pre k ((c, n) :: (d, m) :: rest') = pre := by
          simp [sepLead, hct]
        have hl0 : sepLead t pre 0 ((d, m) :: rest') = (if d = t then pre else 0) := by
          simp [sepLead]
        have hg : sepNG t pre post c n d = post + (if d = t then pre else 0) := by
          simp [sepNG, hct]
        rw [hl0, pwApply_cons_cons, hl1, hg, ofRepN_cons, ofRepN_eq]
        exact sep_assemble pre post _ t c _ hct
    · have step : sepAux t (List.replicate pre ' ' ++ t :: List.replicate post ' ')
          false (List.replicate k ' ') (bodyR ((c, n) :: rest)) =
          List.replicate k ' ' ++ c ::
            sepAux t (List.replicate pre ' ' ++ t :: List.replicate post ' ')
              false (List.replicate n ' ') (bodyR rest) := by
        have h1 : sepAux t (List.replicate pre ' ' ++ t :: List.replicate post ' ')
            false (List.replicate k ' ')
            (c :: (List.replicate n ' ' ++ bodyR rest)) =
            (List.replicate k ' ').reverse ++ c ::
              sepAux t (List.replicate pre ' ' ++ t :: List.replicate post ' ')
                false [] (List.replicate n ' ' ++ bodyR rest) := by
          simp [sepAux, hc, hct]
        rw [show bodyR ((c, n) :: rest) = c :: (List.replicate n ' ' ++ bodyR rest)
            from rfl, h1, List.reverse_replicate, sepAux_false_spaces]
        simp
      rw [step, ih hvrest n]
      cases rest with
      | nil =>
        have hl1 : sepLead t pre k [(c, n)] = k := by simp [sepLead, hct]
        have hl0 : sepLead t pre n ([] : RepN) = n := rfl
        have hg : sepLastG t post c n = n := by simp [sepLastG, hct]
        rw [hl0, pwApply_single, pwApply_nil, ofRepN_nil, hl1, hg, ofRepN_cons]
        simp [bodyR]
      | cons q rest' =>
        obtain ⟨d, m⟩ := q
        have hl1 : sepLead t pre k ((c, n) :: (d, m) :: rest') = k := by
          simp [sepLead, hct]
        have hlg : sepNG t pre post c n d = sepLead t pre n ((d, m) :: rest') := by
          simp [sepNG, sepLead, hct]
        rw [pwApply_cons_cons, hl1, hlg, ofRepN_cons, ofRepN_eq]

theorem opAux_norm_spaces (j : Nat) : ∀ (pend x : List Char),
    opAux .norm pend [] (List.replicate j ' ' ++ x) =
      opAux .norm (List.replicate j ' ' ++ pend) [] x := by
  induction j with
  | zero => intro pend x; simp
  | succ j ih =>
    intro pend x
    have h1 : opAux .norm pend [] (' ' :: (List.replicate j ' ' ++ x)) =
        opAux .norm (' ' :: pend) [] (List.replicate j ' ' ++ x) := by
      simp [opAux, pySpace]
    simp only [List.replicate_succ, List.cons_append, h1, ih]
    rw [replicate_cons_comm]

theorem opAux_skip_spaces (j : Nat) (x : List Char) :
    opAux .skip [] [] (List.replicate j ' ' ++ x) = opAux .skip [] [] x := by
  induction j with
  | zero => simp
  | succ j ih =>
    simp only [List.replicate_succ, List.cons_append]
    rw [show opAux .skip [] [] (' ' :: (List.replicate j ' ' ++ x)) =
        opAux .skip [] [] (List.replicate j ' ' ++ x) by simp [opAux, pySpace]]
    exact ih

theorem bodyR_pw_nonop (d : Char) (hd : isOpCh d = false) (m : Nat) (rest : RepN) :
    bodyR (pwApply opNG opLastG ((d, m) :: rest)) =
      d :: ofRepN (opLead m rest) (pwApply opNG opLastG rest) := by
  cases rest with
  | nil =>
    simp [pwApply, bodyR, opLastG, opLead, ofRepN, hd]
  | cons q rest' =>
    obtain ⟨e, j⟩ := q
    rw [pwApply_cons_cons]
    simp only [bodyR, ofRepN_eq, opLead, opNG, hd]
    by_cases he : isOpCh e <;> simp [he]

theorem afterOp_pw : ∀ (rest : RepN) (c : Char) (n : Nat), isOpCh c = true →
    c :: afterOp n rest = bodyR (pwApply opNG opLastG ((c, n) :: rest)) := by
  intro rest
  induction rest with
  | nil =>
    intro c n hc
    simp [afterOp, pwApply, bodyR, opLastG, hc]
  | cons q rest' ih =>
    intro c n hc
    obtain ⟨d, m⟩ := q
    rw [pwApply_cons_cons,
      show bodyR ((c, opNG c n d) :: pwApply opNG opLastG ((d, m) :: rest')) =
        c :: (List.replicate (opNG c n d) ' ' ++
          bodyR (pwApply opNG opLastG ((d, m) :: rest'))) from rfl]
    by_cases hd : isOpCh d = true
    · have hrec := ih d m hd
      rw [← hrec]
      cases n with
      | zero =>
        have hg : opNG c 0 d = 0 := by simp [opNG, hc, hd]
        rw [hg]
        simp [afterOp, hd]
      | succ n' =>
        have hg : opNG c (n' + 1) d = 2 := by simp [opNG, hc, hd]
        rw [hg]
        simp [afterOp, hd, List.replicate]
    · have hd' : isOpCh d = false := by simpa using hd
      rw [bodyR_pw_nonop d hd' m rest']
      have hg : opNG c n d = 1 := by simp [opNG, hc, hd']
      rw [hg]
      simp [afterOp, hd', List.replicate]

/-- The operator scanner in mode `norm` (first component) and mode `inOp`
(second component) on rep-rendered inputs, by joint induction on the rep
length. -/
theorem opAux_sim_aux : ∀ N : Nat,
    (∀ r : RepN, r.length ≤ N → validR r → ∀ k,
      opAux .norm (List.replicate k ' ') [] (bodyR r) =
        ofRepN (opLead k r) (pwApply opNG opLastG r)) ∧
    (∀ rest : RepN, rest.length ≤ N → validR rest → ∀ (acc : List Char) (n : Nat),
      opAux .inOp [] acc (List.replicate n ' ' ++ bodyR rest) =
        ' ' :: acc.reverse ++ afterOp n rest) := by
  intro N
  induction N with
  | zero =>
    constructor
    · intro r hlen _ k
      rw [List.length_eq_zero.mp (Nat.le_zero.mp hlen)]
      simp [bodyR, opAux, ofRepN, opLead, pwApply, List.reverse_replicate]
    · intro rest hlen _ acc n
      rw [List.length_eq_zero.mp (Nat.le_zero.mp hlen)]
      cases n with
      | zero => simp [bodyR, opAux, afterOp]
      | succ n' =>
        simp only [bodyR, List.append_nil, List.replicate_succ]
        rw [show opAux .inOp [] acc (' ' :: List.replicate n' ' ') =
            ' ' :: (acc.reverse ++ ' ' :: opAux .skip [] [] (List.replicate n' ' '))
          by simp [opAux, pySpace, isOpCh]]
        rw [show List.replicate n' ' ' = List.replicate n' ' ' ++ [] by simp,
          opAux_skip_spaces]
        simp [opAux, afterOp]
  | succ N ih =>
    obtain ⟨ihn, ihi⟩ := ih
    constructor
    · intro r hlen hv k
      cases r with
      | nil =>
        simp [bodyR, opAux, ofRepN, opLead, pwApply, List.reverse_replicate]
      | cons p rest =>
        obtain ⟨c, n⟩ := p
        have hc : pySpace c = false := hv (c, n) (List.mem_cons_self _ _)
        have hvrest : validR rest := fun q hq => hv q (List.mem_cons_of_mem _ hq)
        have hlr : rest.length ≤ N := by
          simp only [List.length_cons] at hlen; omega
        by_cases hop : isOpCh c
        · have step : opAux .norm (List.replicate k ' ') [] (bodyR ((c, n) :: rest)) =
              opAux .inOp [] [c] (List.replicate n ' ' ++ bodyR rest) := by
            simp [bodyR, opAux, hc, hop]
          rw [step, ihi rest hlr hvrest [c] n]
          have : opLead k ((c, n) :: rest) = 1 := by simp [opLead, hop]
          rw [this, ofRepN_eq, ← afterOp_pw rest c n hop]
          simp [List.replicate]
        · have step : opAux .norm (List.replicate k ' ') [] (bodyR ((c, n) :: rest)) =
              List.replicate k ' ' ++ c ::
                opAux .norm (List.replicate n ' ') [] (bodyR rest) := by
            rw [show bodyR ((c, n) :: rest) = c :: (List.replicate n ' ' ++ bodyR rest)
                from rfl]
            rw [show opAux .norm (List.replicate k ' ') []
                  (c :: (List.replicate n ' ' ++ bodyR rest)) =
                (List.replicate k ' ').reverse ++ c ::
                  opAux .norm [] [] (List.replicate n ' ' ++ bodyR rest) by
              simp [opAux, hc, hop]]
            rw [List.reverse_replicate, opAux_norm_spaces]
            simp
          have hop' : isOpCh c = false := by simpa using hop
          have hl : opLead k ((c, n) :: rest) = k := by simp [opLead, hop']
          rw [step, ihn rest hlr hvrest n, hl,
            show ofRepN k (pwApply opNG opLastG ((c, n) :: rest)) =
              List.replicate k ' ' ++ bodyR (pwApply opNG opLastG ((c, n) :: rest))
              from rfl,
            bodyR_pw_nonop c hop' n rest]
    · intro rest hlen hv acc n
      cases n with
      | zero =>
        simp only [List.replicate_zero, List.nil_append]
        cases rest with
        | nil => simp [bodyR, opAux, afterOp]
        | cons q rest' =>
          obtain ⟨d, m⟩ := q
          have hd0 : pySpace d = false := hv (d, m) (List.mem_cons_self _ _)
          have hvrest' : validR rest' := fun q hq => hv q (List.mem_cons_of_mem _ hq)
          have hlr : rest'.length ≤ N := by
            simp only [List.length_cons] at hlen; omega
          by_cases hd : isOpCh d
          · have step : opAux .inOp [] acc (bodyR ((d, m) :: rest')) =
                opAux .inOp [] (d :: acc) (List.replicate m ' ' ++ bodyR rest') := by
              simp [bodyR, opAux, hd]
            rw [step, ihi rest' hlr hvrest' (d :: acc) m]
            simp [afterOp, hd, List.append_assoc]
          · have step : opAux .inOp [] acc (bodyR ((d, m) :: rest')) =
                ' ' :: (acc.reverse ++ ' ' :: d ::
                  opAux .norm (List.replicate m ' ') [] (bodyR rest')) := by
              rw [show bodyR ((d, m) :: rest') =
                  d :: (List.replicate m ' ' ++ bodyR rest') from rfl]
              rw [show opAux .inOp [] acc (d :: (List.replicate m ' ' ++ bodyR rest')) =
                  ' ' :: (acc.reverse ++ ' ' :: d ::
                    opAux .norm [] [] (List.replicate m ' ' ++ bodyR rest')) by
                simp [opAux, hd0, hd]]
              rw [opAux_norm_spaces]
              simp
            rw [step, ihn rest' hlr hvrest' m]
            simp [afterOp, hd]
      | succ n' =>
        have step : opAux .inOp [] acc
            (List.replicate (n' + 1) ' ' ++ bodyR rest) =
            ' ' :: (acc.reverse ++ ' ' ::
              opAux .skip [] [] (bodyR rest)) := by
          simp only [List.replicate_succ, List.cons_append]
          rw [show opAux .inOp [] acc (' ' :: (List.replicate n' ' ' ++ bodyR rest)) =
              ' ' :: (acc.reverse ++ ' ' ::
                opAux .skip [] [] (List.replicate n' ' ' ++ bodyR rest)) by
            simp [opAux, pySpace, isOpCh]]
          rw [opAux_skip_spaces]
        rw [step]
        cases rest with
        | nil => simp [bodyR, opAux, afterOp]
        | cons q rest' =>
          obtain ⟨d, m⟩ := q
          have hd0 : pySpace d = false := hv (d, m) (List.mem_cons_self _ _)
          have hvrest' : validR rest' := fun q hq => hv q (List.mem_cons_of_mem _ hq)
          have hlr : rest'.length ≤ N := by
            simp only [List.length_cons] at hlen; omega
          by_cases hd : isOpCh d
          · have step2 : opAux .skip [] [] (bodyR ((d, m) :: rest')) =
                opAux .inOp [] [d] (List.replicate m ' ' ++ bodyR rest') := by
              simp [bodyR, opAux, hd0, hd]
            rw [step2, ihi rest' hlr hvrest' [d] m]
            simp [afterOp, hd]
          · have step2 : opAux .skip [] [] (bodyR ((d, m) :: rest')) =
                d :: opAux .norm (List.replicate m ' ') [] (bodyR rest') := by
              rw [show bodyR ((d, m) :: rest') =
                  d :: (List.replicate m ' ' ++ bodyR rest') from rfl]
              rw [show opAux .skip [] [] (d :: (List.replicate m ' ' ++ bodyR rest')) =
                  d :: opAux .norm [] [] (List.replicate m ' ' ++ bodyR rest') by
                simp [opAux, hd0, hd]]
              rw [opAux_norm_spaces]
              simp
            rw [step2, ihn rest' hlr hvrest' m]
            simp [afterOp, hd]

/-- Simulation of the operator-spacing substitution on the rep
representation. -/
theorem opSpacing_sim (r : RepN) (hv : validR r) (k : Nat) :
    opSpacing (ofRepN k r) = ofRepN (opLead k r) (pwApply opNG opLastG r) := by
  have h := (opAux_sim_aux r.length).1 r le_rfl hv k
  unfold opSpacing
  rw [ofRepN_eq, opAux_norm_spaces]
  simpa using h

/-- Simulation of the comma substitution. -/
theorem commaSpacing_sim (r : RepN) (hv : validR r) (k : Nat) :
    commaSpacing (ofRepN k r) =
      ofRepN (sepLead ',' 0 k r) (pwApply (sepNG ',' 0 1) (sepLastG ',' 1) r) := by
  have h := sepAux_sim ',' 0 1 (by decide) r hv k
  simp only [List.replicate_zero, List.replicate_succ, List.nil_append] at h
  unfold commaSpacing
  rw [ofRepN_eq, sepAux_false_spaces]
  simpa using h

/-- Simulation of the opening-parenthesis substitution. -/
theorem parenLSpacing_sim (r : RepN) (hv : validR r) (k : Nat) :
    parenLSpacing (ofRepN k r) =
      ofRepN (sepLead '(' 1 k r) (pwApply (sepNG '(' 1 0) (sepLastG '(' 0) r) := by
  have h := sepAux_sim '(' 1 0 (by decide) r hv k
  simp only [List.replicate_zero, List.replicate_succ, List.nil_append,
    List.append_nil] at h
  unfold parenLSpacing
  rw [ofRepN_eq, sepAux_false_spaces]
  simpa using h

/-- Simulation of the closing-parenthesis substitution. -/
theorem parenRSpacing_sim (r : RepN) (hv : validR r) (k : Nat) :
    parenRSpacing (ofRepN k r) =
      ofRepN (sepLead ')' 0 k r) (pwApply (sepNG ')' 0 1) (sepLastG ')' 1) r) := by
  have h := sepAux_sim ')' 0 1 (by decide) r hv k
  simp only [List.replicate_zero, List.replicate_succ, List.nil_append] at h
  unfold parenRSpacing
  rw [ofRepN_eq, sepAux_false_spaces]
  simpa using h

theorem collapseWs_replicate (k : Nat) :
    collapseWs (List.replicate k ' ') = List.replicate (min k 1) ' ' := by
  induction k with
  | zero => simp [collapseWs]
  | succ k ih =>
    cases k with
    | zero => simp [collapseWs, pySpace]
    | succ j =>
      rw [show List.replicate (j + 1 + 1) ' ' =
          ' ' :: ' ' :: List.replicate j ' ' from rfl]
      rw [show collapseWs (' ' :: ' ' :: List.replicate j ' ') =
          collapseWs (' ' :: List.replicate j ' ') by simp [collapseWs, pySpace]]
      rw [show (' ' :: List.replicate j ' ') = List.replicate (j + 1) ' ' from rfl]
      rw [ih]
      have h : (j + 1) ⊓ 1 = (j + 1 + 1) ⊓ 1 := by omega
      rw [h]

theorem collapseWs_cons_nonspace (c : Char) (hc : pySpace c = false) (x : List Char) :
    collapseWs (c :: x) = c :: collapseWs x := by
  cases x with
  | nil =>
    simp only [collapseWs]
    rw [hc]
    simp [collapseWs]
  | cons b y =>
    simp only [collapseWs]
    rw [hc]
    simp

theorem collapseWs_space_run (j : Nat) (c : Char) (hc : pySpace c = false)
    (x : List Char) :
    collapseWs (List.replicate (j + 1) ' ' ++ c :: x) =
      ' ' :: collapseWs (c :: x) := by
  induction j with
  | zero =>
    simp only [List.replicate_succ, List.replicate_zero, List.cons_append,
      List.nil_append, collapseWs]
    rw [hc]
    simp [pySpace]
  | succ j ih =>
    rw [show List.replicate (j + 1 + 1) ' ' ++ c :: x =
        ' ' :: (List.replicate (j + 1) ' ' ++ c :: x) from rfl]
    rw [show List.replicate (j + 1) ' ' ++ c :: x =
        ' ' :: (List.replicate j ' ' ++ c :: x) from rfl] at ih ⊢
    simp only [collapseWs, pySpace]
    simpa using ih

/-- `re.sub(r'\s+', ' ', ·)` on a rep clamps the leading spaces and every
gap to at most one space. -/
theorem collapseWs_sim (r : RepN) (hv : validR r) (k : Nat) :
    collapseWs (ofRepN k r) =
      ofRepN (min k 1) (r.map (fun p => (p.1, min p.2 1))) := by
  induction r generalizing k with
  | nil => simpa [ofRepN, bodyR] using collapseWs_replicate k
  | cons p rest ih =>
    obtain ⟨c, n⟩ := p
    have hc : pySpace c = false := hv (c, n) (List.mem_cons_self _ _)
    have hvrest : validR rest := fun q hq => hv q (List.mem_cons_of_mem _ hq)
    have hbody : collapseWs (bodyR ((c, n) :: rest)) =
        c :: collapseWs (ofRepN n rest) := by
      rw [show bodyR ((c, n) :: rest) = c :: (List.replicate n ' ' ++ bodyR rest)
          from rfl]
      rw [collapseWs_cons_nonspace c hc]
      rfl
    cases k with
    | zero =>
      have h1 : ofRepN 0 ((c, n) :: rest) = bodyR ((c, n) :: rest) := by
        simp [ofRepN_eq]
      rw [h1, hbody, ih hvrest n]
      simp [ofRepN_eq, bodyR, List.map_cons]
    | succ k' =>
      rw [ofRepN_eq,
        show bodyR ((c, n) :: rest) = c :: (List.replicate n ' ' ++ bodyR rest)
          from rfl,
        collapseWs_space_run k' c hc _,
        show c :: (List.replicate n ' ' ++ bodyR rest) = bodyR ((c, n) :: rest)
          from rfl,
        hbody, ih hvrest n]
      simp [ofRepN_eq, bodyR, List.map_cons, List.replicate]

theorem lstripWs_ofRepN (r : RepN) (hv : validR r) (k : Nat) :
    lstripWs (ofRepN k r) = bodyR r := by
  rw [ofRepN_eq]
  unfold lstripWs
  induction k with
  | zero =>
    simp only [List.replicate_zero, List.nil_append]
    cases r with
    | nil => rfl
    | cons p rest =>
      obtain ⟨c, n⟩ := p
      have hc : pySpace c = false := hv (c, n) (List.mem_cons_self _ _)
      simp [bodyR, List.dropWhile_cons, hc]
  | succ j ih =>
    simp only [List.replicate_succ, List.cons_append, List.dropWhile_cons]
    simpa [pySpace] using ih

theorem rstripWs_replicate (n : Nat) : rstripWs (List.replicate n ' ') = [] := by
  unfold rstripWs
  rw [List.reverse_replicate]
  rw [show List.dropWhile pySpace (List.replicate n ' ') = [] by
    induction n with
    | zero => rfl
    | succ j ih =>
      rw [List.replicate_succ, List.dropWhile_cons,
        if_pos (show pySpace ' ' = true from rfl)]
      exact ih]
  rfl

theorem rstripWs_cons_nonspace (c : Char) (hc : pySpace c = false) (t : List Char) :
    rstripWs (c :: t) = c :: rstripWs t := by
  unfold rstripWs
  rw [show (c :: t).reverse = t.reverse ++ [c] by simp]
  rw [List.dropWhile_append]
  by_cases h : (List.dropWhile pySpace t.reverse).isEmpty
  · rw [if_pos h]
    rw [List.isEmpty_iff.mp h]
    simp [List.dropWhile_cons, hc]
  · rw [if_neg h]
    simp

theorem rstripWs_append_left (x y : List Char) (h : rstripWs y ≠ []) :
    rstripWs (x ++ y) = x ++ rstripWs y := by
  unfold rstripWs at h ⊢
  rw [List.reverse_append, List.dropWhile_append]
  have h2 : ¬ (List.dropWhile pySpace y.reverse).isEmpty = true := by
    intro hemp
    exact h (by rw [List.isEmpty_iff.mp hemp]; rfl)
  rw [if_neg h2]
  simp

theorem bodyR_ne_nil (p : Char × Nat) (rest : RepN) : bodyR (p :: rest) ≠ [] := by
  obtain ⟨c, n⟩ := p
  simp [bodyR]

/-- `str.strip`'s right half drops exactly the trailing gap of a rep. -/
theorem rstripWs_bodyR (r : RepN) (hv : validR r) :
    rstripWs (bodyR r) = bodyR (pwApply (fun _ n _ => n) (fun _ _ => 0) r) := by
  induction r with
  | nil => simp [bodyR, rstripWs, lstripWs]
  | cons p rest ih =>
    obtain ⟨c, n⟩ := p
    have hc : pySpace c = false := hv (c, n) (List.mem_cons_self _ _)
    have hvrest : validR rest := fun q hq => hv q (List.mem_cons_of_mem _ hq)
    cases rest with
    | nil =>
      rw [pwApply_single]
      rw [show bodyR [(c, n)] = c :: List.replicate n ' ' by simp [bodyR]]
      rw [rstripWs_cons_nonspace c hc, rstripWs_replicate]
      simp [bodyR]
    | cons q rest' =>
      obtain ⟨d, m⟩ := q
      have hne : rstripWs (bodyR ((d, m) :: rest')) ≠ [] := by
        rw [ih hvrest]
        cases h : pwApply (fun _ n _ => n) (fun _ _ => 0) ((d, m) :: rest') with
        | nil =>
          exfalso
          cases rest' with
          | nil => simp [pwApply_single] at h
          | cons p3 t3 =>
            obtain ⟨e, j⟩ := p3
            rw [pwApply_cons_cons] at h
            simp at h
        | cons p2 t2 => exact bodyR_ne_nil p2 t2
      rw [pwApply_cons_cons]
      rw [show bodyR ((c, n) :: (d, m) :: rest') =
          (c :: List.replicate n ' ') ++ bodyR ((d, m) :: rest') by simp [bodyR]]
      rw [rstripWs_append_left _ _ hne, ih hvrest]
      simp [bodyR]

theorem map_clamp_eq_pwApply (r : RepN) :
    r.map (fun p => (p.1, min p.2 1)) =
      pwApply (fun _ n _ => min n 1) (fun _ n => min n 1) r := by
  induction r with
  | nil => rfl
  | cons p rest ih =>
    obtain ⟨c, n⟩ := p
    cases rest with
    | nil => rfl
    | cons q rest' =>
      obtain ⟨d, m⟩ := q
      rw [pwApply_cons_cons, List.map_cons, ← ih]

theorem pwApply_congr (g g' : Char → Nat → Char → Nat) (lg lg' : Char → Nat → Nat)
    (hg : ∀ c n d, g c n d = g' c n d) (hl : ∀ c n, lg c n = lg' c n) :
    ∀ r : RepN, pwApply g lg r = pwApply g' lg' r := by
  intro r
  induction r with
  | nil => rfl
  | cons p rest ih =>
    obtain ⟨c, n⟩ := p
    cases rest with
    | nil => simp [pwApply_single, hl]
    | cons q rest' =>
      obtain ⟨d, m⟩ := q
      rw [pwApply_cons_cons, pwApply_cons_cons, hg, ih]

/-- One pass of the four spacing substitutions followed by the final
cleanup, on a rep-rendered input, produces exactly the pairwise gap map
`pwGaps`. -/
theorem spacing_pipe_sim (r : RepN) (hv : validR r) (k : Nat) :
    pyStripWs (finalClean (parenRSpacing (parenLSpacing (commaSpacing (opSpacing
      (ofRepN k r)))))) = bodyR (pwGaps r) := by
  have h1 := opSpacing_sim r hv k
  have hv1 := validR_pwApply opNG opLastG r hv
  have h2 := commaSpacing_sim _ hv1 (opLead k r)
  have hv2 := validR_pwApply (sepNG ',' 0 1) (sepLastG ',' 1) _ hv1
  have h3 := parenLSpacing_sim _ hv2
    (sepLead ',' 0 (opLead k r) (pwApply opNG opLastG r))
  have hv3 := validR_pwApply (sepNG '(' 1 0) (sepLastG '(' 0) _ hv2
  have h4 := parenRSpacing_sim _ hv3
    (sepLead '(' 1 (sepLead ',' 0 (opLead k r) (pwApply opNG opLastG r))
      (pwApply (sepNG ',' 0 1) (sepLastG ',' 1) (pwApply opNG opLastG r)))
  have hv4 := validR_pwApply (sepNG ')' 0 1) (sepLastG ')' 1) _ hv3
  rw [h1, h2, h3, h4]
  unfold finalClean
  rw [collapseWs_sim _ hv4 _]
  have hv5 : validR ((pwApply (sepNG ')' 0 1) (sepLastG ')' 1)
      (pwApply (sepNG '(' 1 0) (sepLastG '(' 0)
        (pwApply (sepNG ',' 0 1) (sepLastG ',' 1)
          (pwApply opNG opLastG r)))).map (fun p => (p.1, min p.2 1))) := by
    intro p hp
    obtain ⟨q, hq, hqe⟩ := List.mem_map.mp hp
    have hvq := hv4 q hq
    rw [← hqe]
    simpa using hvq
  unfold pyStripWs
  rw [lstripWs_ofRepN _ hv5 _, rstripWs_bodyR _ hv5]
  have hv6 := validR_pwApply (fun _ n _ => n) (fun _ _ => 0) _ hv5
  rw [show lstripWs (bodyR (pwApply (fun _ n _ => n) (fun _ _ => 0)
      ((pwApply (sepNG ')' 0 1) (sepLastG ')' 1)
        (pwApply (sepNG '(' 1 0) (sepLastG '(' 0)
          (pwApply (sepNG ',' 0 1) (sepLastG ',' 1)
            (pwApply opNG opLastG r)))).map (fun p => (p.1, min p.2 1))))) =
      lstripWs (ofRepN 0 (pwApply (fun _ n _ => n) (fun _ _ => 0)
        ((pwApply (sepNG ')' 0 1) (sepLastG ')' 1)
          (pwApply (sepNG '(' 1 0) (sepLastG '(' 0)
            (pwApply (sepNG ',' 0 1) (sepLastG ',' 1)
              (pwApply opNG opLastG r)))).map (fun p => (p.1, min p.2 1))))) by
    rw [ofRepN_eq]
    simp]
  rw [lstripWs_ofRepN _ hv6 0, rstripWs_bodyR _ hv6]
  rw [map_clamp_eq_pwApply]
  rw [pwApply_pwApply, pwApply_pwApply, pwApply_pwApply, pwApply_pwApply,
    pwApply_pwApply, pwApply_pwApply]
  unfold pwGaps
  exact congrArg bodyR
    (pwApply_congr _ gAll _ (fun _ _ => 0) (fun c n d => rfl) (fun c n => rfl) r)

/-- The combined gap transformation is a fixpoint operator. -/
theorem gAll_fix (c d : Char) (n : Nat) : gAll c (gAll c n d) d = gAll c n d := by
  unfold gAll sepNG opNG
  by_cases h1 : isOpCh c <;> by_cases h2 : isOpCh d <;>
    by_cases h3 : c = ',' <;> by_cases h4 : d = ',' <;>
    by_cases h5 : c = '(' <;> by_cases h6 : d = '(' <;>
    by_cases h7 : c = ')' <;> by_cases h8 : d = ')' <;>
    simp [h1, h2, h3, h4, h5, h6, h7, h8]

/-- `pwGaps` is idempotent. -/
theorem pwGaps_idem (r : RepN) : pwGaps (pwGaps r) = pwGaps r := by
  unfold pwGaps
  rw [pwApply_pwApply]
  exact pwApply_congr _ _ _ _ (fun c n d => gAll_fix c d n) (fun _ _ => rfl) r

theorem dropWhile_head_not (p : Char → Bool) :
    ∀ (l : List Char) (c : Char) (t : List Char),
      l.dropWhile p = c :: t → p c = false := by
  intro l
  induction l with
  | nil => intro c t h; simp at h
  | cons a l ih =>
    intro c t h
    by_cases hp : p a
    · rw [List.dropWhile_cons, if_pos hp] at h
      exact ih c t h
    · rw [List.dropWhile_cons, if_neg hp] at h
      cases h
      simpa using hp

theorem toRep_spec : ∀ N : Nat, ∀ u : List Char, u.length ≤ N → onlySp u →
    (∀ c t, u = c :: t → pySpace c = false) →
    bodyR (toRep u) = u ∧ validR (toRep u) := by
  intro N
  induction N with
  | zero =>
    intro u hlen _ _
    rw [List.length_eq_zero.mp (Nat.le_zero.mp hlen)]
    exact ⟨by rw [toRep]; rfl, fun p hp => by simp [toRep] at hp⟩
  | succ N ih =>
    intro u hlen hsp hh
    cases u with
    | nil => exact ⟨by rw [toRep]; rfl, fun p hp => by simp [toRep] at hp⟩
    | cons c rest =>
      have hc : pySpace c = false := hh c rest rfl
      have htw : rest.takeWhile (fun x => x = ' ') =
          List.replicate (rest.takeWhile (fun x => x = ' ')).length ' ' := by
        rw [List.eq_replicate_length]
        intro b hb
        simpa using List.mem_takeWhile_imp hb
      have hlen2 : (rest.dropWhile (fun x => x = ' ')).length ≤ N := by
        have h1 : (rest.dropWhile (fun x => x = ' ')).length ≤ rest.length :=
          (List.dropWhile_sublist _).length_le
      -- rest length ≤ N
        have h2 : rest.length ≤ N := by
          simp only [List.length_cons] at hlen; omega
        omega
      have hsp2 : onlySp (rest.dropWhile (fun x => x = ' ')) := by
        intro x hx hpx
        exact hsp x (List.mem_cons_of_mem c ((List.dropWhile_sublist _).mem hx)) hpx
      have hh2 : ∀ d t, rest.dropWhile (fun x => x = ' ') = d :: t →
          pySpace d = false := by
        intro d t hd
        have hds : (d = ' ') = false := by
          simpa using dropWhile_head_not (fun x => x = ' ') rest d t hd
        by_cases hpd : pySpace d = true
        · have : d = ' ' := hsp d
            (List.mem_cons_of_mem c ((List.dropWhile_sublist _).mem
              (hd ▸ List.mem_cons_self d t))) hpd
          rw [this] at hds
          simp at hds
        · simpa using hpd
      obtain ⟨hbody, hval⟩ := ih (rest.dropWhile (fun x => x = ' ')) hlen2 hsp2 hh2
      constructor
      · rw [show toRep (c :: rest) =
            (c, (rest.takeWhile (fun x => x = ' ')).length) ::
              toRep (rest.dropWhile (fun x => x = ' ')) from by rw [toRep]]
        rw [show bodyR ((c, (rest.takeWhile (fun x => x = ' ')).length) ::
              toRep (rest.dropWhile (fun x => x = ' '))) =
            c :: (List.replicate (rest.takeWhile (fun x => x = ' ')).length ' ' ++
              bodyR (toRep (rest.dropWhile (fun x => x = ' ')))) from rfl]
        rw [hbody, ← htw, List.takeWhile_append_dropWhile]
      · rw [show toRep (c :: rest) =
            (c, (rest.takeWhile (fun x => x = ' ')).length) ::
              toRep (rest.dropWhile (fun x => x = ' ')) from by rw [toRep]]
        intro p hp
        rcases List.mem_cons.mp hp with hp1 | hp2
        · rw [hp1]; exact hc
        · exact hval p hp2

/-- Parsing and rendering round-trip for strings whose whitespace consists
of plain spaces and that do not start with whitespace. -/
theorem toRep_roundtrip (u : List Char) (hsp : onlySp u)
    (hh : ∀ c t, u = c :: t → pySpace c = false) :
    bodyR (toRep u) = u ∧ validR (toRep u) :=
  toRep_spec u.length u le_rfl hsp hh

theorem hasPair_tail_false (a b x : Char) (rest : List Char)
    (h : hasPair a b (x :: rest) = false) : hasPair a b rest = false := by
  cases rest with
  | nil => rfl
  | cons y t =>
    rw [show hasPair a b (x :: y :: t) =
        ((x = a && y = b) || hasPair a b (y :: t)) from rfl] at h
    exact (Bool.or_eq_false_iff.mp h).2

theorem hasPair_append_false_right (a b : Char) :
    ∀ (x y : List Char), hasPair a b (x ++ y) = false → hasPair a b y = false := by
  intro x
  induction x with
  | nil => intro y h; simpa using h
  | cons c t ih =>
    intro y h
    exact ih y (hasPair_tail_false a b c (t ++ y) (by simpa using h))

theorem hasPair_cons_cons (a b x y : Char) (t : List Char) :
    hasPair a b (x :: y :: t) = ((x = a && y = b) || hasPair a b (y :: t)) := rfl

theorem hasPair_append_false_left (a b : Char) :
    ∀ (x y : List Char), hasPair a b (x ++ y) = false → hasPair a b x = false := by
  intro x
  induction x with
  | nil => intro y _; rfl
  | cons c t ih =>
    intro y h
    cases t with
    | nil => rfl
    | cons d t2 =>
      rw [hasPair_cons_cons]
      rw [show ((c :: d :: t2) ++ y) = c :: d :: (t2 ++ y) from rfl,
        hasPair_cons_cons] at h
      rcases Bool.or_eq_false_iff.mp h with ⟨h1, h2⟩
      rw [h1]
      simpa using ih y h2

theorem hasPair_space_run (a b : Char) (ha : (' ' = a) = False) :
    ∀ (j : Nat) (y : List Char),
      hasPair a b (List.replicate j ' ' ++ y) = hasPair a b y := by
  intro j
  induction j with
  | zero => intro y; simp
  | succ j ih =>
    intro y
    rw [List.replicate_succ, List.cons_append]
    cases hj : List.replicate j ' ' ++ y with
    | nil =>
      rcases List.append_eq_nil.mp hj with ⟨_, h2⟩
      rw [h2]
      rfl
    | cons w ws =>
      rw [hasPair_cons_cons, ← hj, ih]
      simp [ha]

theorem hasPair_bodyR (a b : Char) (ha : pySpace a = false) (hb : pySpace b = false) :
    ∀ r : RepN, validR r → hasPair a b (bodyR r) = zeroPair a b r := by
  have ha' : (' ' = a) = False := by
    simp only [eq_iff_iff, iff_false]
    intro h
    rw [← h] at ha
    simp [pySpace] at ha
  have hb' : (' ' = b) = False := by
    simp only [eq_iff_iff, iff_false]
    intro h
    rw [← h] at hb
    simp [pySpace] at hb
  intro r
  induction r with
  | nil => intro _; rfl
  | cons p rest ih =>
    intro hv
    obtain ⟨c, n⟩ := p
    have hvrest : validR rest := fun q hq => hv q (List.mem_cons_of_mem _ hq)
    cases rest with
    | nil =>
      rw [show bodyR [(c, n)] = c :: List.replicate n ' ' from by simp [bodyR]]
      rw [show zeroPair a b [(c, n)] = false from rfl]
      cases n with
      | zero => rfl
      | succ j =>
        rw [List.replicate_succ, hasPair_cons_cons]
        rw [show (' ' :: List.replicate j ' ') =
            List.replicate (j + 1) ' ' ++ [] by simp [List.replicate_succ],
          hasPair_space_run a b ha', show hasPair a b [] = false from rfl]
        simp [hb']
    | cons q rest' =>
      obtain ⟨d, m⟩ := q
      have hd : pySpace d = false := hvrest (d, m) (List.mem_cons_self _ _)
      rw [show bodyR ((c, n) :: (d, m) :: rest') =
          c :: (List.replicate n ' ' ++ bodyR ((d, m) :: rest')) from rfl]
      rw [show zeroPair a b ((c, n) :: (d, m) :: rest') =
          ((decide (n = 0) && (c = a && d = b)) || zeroPair a b ((d, m) :: rest'))
          from rfl]
      cases n with
      | zero =>
        rw [show List.replicate 0 ' ' ++ bodyR ((d, m) :: rest') =
            bodyR ((d, m) :: rest') by simp]
        rw [show bodyR ((d, m) :: rest') =
            d :: (List.replicate m ' ' ++ bodyR rest') from rfl]
        rw [hasPair_cons_cons]
        rw [show d :: (List.replicate m ' ' ++ bodyR rest') =
            bodyR ((d, m) :: rest') from rfl]
        rw [ih hvrest]
        simp
      | succ j =>
        rw [List.replicate_succ, List.cons_append, hasPair_cons_cons]
        rw [show (' ' :: (List.replicate j ' ' ++ bodyR ((d, m) :: rest'))) =
            List.replicate (j + 1) ' ' ++ bodyR ((d, m) :: rest')
            by simp [List.replicate_succ],
          hasPair_space_run a b ha', ih hvrest]
        simp [hb']

theorem toNat_ofNat_small (n : Nat) (h : n < 55296) : (Char.ofNat n).toNat = n := by
  have hv : n.isValidChar := Or.inl (by omega)
  unfold Char.ofNat
  rw [dif_pos hv]
  rfl

theorem pyLowerCh_fix (a : Char) (ha : a.toNat < 65 ∨ 90 < a.toNat) :
    pyLowerCh a = a := by
  simp only [pyLowerCh, Char.toLower]
  rw [if_neg (by omega)]

theorem pyLowerCh_eq_nonletter (a : Char)
    (ha2 : a.toNat < 97 ∨ 122 < a.toNat) (c : Char) (h : pyLowerCh c = a) :
    c = a := by
  by_cases hc : c.toNat ≥ 65 ∧ c.toNat ≤ 90
  · exfalso
    simp only [pyLowerCh, Char.toLower] at h
    rw [if_pos hc] at h
    have h2 := congrArg Char.toNat h
    rw [toNat_ofNat_small (c.toNat + 32) (by omega)] at h2
    omega
  · simpa only [pyLowerCh, Char.toLower, if_neg hc] using h

theorem pyLowerCh_idem (c : Char) : pyLowerCh (pyLowerCh c) = pyLowerCh c := by
  by_cases hc : c.toNat ≥ 65 ∧ c.toNat ≤ 90
  · have h1 : pyLowerCh c = Char.ofNat (c.toNat + 32) := by
      simp only [pyLowerCh, Char.toLower]
      rw [if_pos hc]
    have h2 : (pyLowerCh c).toNat = c.toNat + 32 := by
      rw [h1, toNat_ofNat_small (c.toNat + 32) (by omega)]
    exact pyLowerCh_fix (pyLowerCh c) (by omega)
  · have h1 : pyLowerCh c = c := by
      simp only [pyLowerCh, Char.toLower]
      rw [if_neg hc]
    rw [h1, h1]

theorem gAll_nonspecial (c d : Char) (n : Nat)
    (hc1 : isOpCh c = false) (hc2 : c ≠ ',') (hc3 : c ≠ '(') (hc4 : c ≠ ')')
    (hd1 : isOpCh d = false) (hd2 : d ≠ ',') (hd3 : d ≠ '(') (hd4 : d ≠ ')') :
    gAll c n d = min n 1 := by
  unfold gAll sepNG opNG
  simp [hc1, hc2, hc3, hc4, hd1, hd2, hd3, hd4]

theorem zeroPair_pwApply_gAll (a b : Char)
    (ha1 : isOpCh a = false) (ha2 : a ≠ ',') (ha3 : a ≠ '(') (ha4 : a ≠ ')')
    (hb1 : isOpCh b = false) (hb2 : b ≠ ',') (hb3 : b ≠ '(') (hb4 : b ≠ ')') :
    ∀ r : RepN, zeroPair a b (pwGaps r) = zeroPair a b r := by
  intro r
  induction r with
  | nil => rfl
  | cons p rest ih =>
    obtain ⟨c, n⟩ := p
    cases rest with
    | nil => rfl
    | cons q rest2 =>
      obtain ⟨d, m⟩ := q
      unfold pwGaps at ih ⊢
      rw [pwApply_cons_cons]
      obtain ⟨x, t, hs⟩ : ∃ x t,
          pwApply gAll (fun _ _ => 0) ((d, m) :: rest2) = (d, x) :: t := by
        cases rest2 with
        | nil => exact ⟨0, [], by rw [pwApply_single]⟩
        | cons q3 r3 =>
          obtain ⟨e, j⟩ := q3
          exact ⟨gAll d m e, _, by rw [pwApply_cons_cons]⟩
      rw [hs]
      rw [show zeroPair a b ((c, gAll c n d) :: (d, x) :: t) =
          ((decide (gAll c n d = 0) && (c = a && d = b)) ||
            zeroPair a b ((d, x) :: t)) from rfl]
      rw [← hs, ih]
      rw [show zeroPair a b ((c, n) :: (d, m) :: rest2) =
          ((decide (n = 0) && (c = a && d = b)) ||
            zeroPair a b ((d, m) :: rest2)) from rfl]
      by_cases hca : c = a
      · by_cases hdb : d = b
        · have hg : gAll c n d = min n 1 := by
            rw [hca, hdb]
            exact gAll_nonspecial a b n ha1 ha2 ha3 ha4 hb1 hb2 hb3 hb4
          rw [hg, decide_eq_decide.mpr (show (min n 1 = 0) ↔ (n = 0) by omega)]
        · simp [hdb]
      · simp [hca]

theorem pwGaps_gap_le1 : ∀ r : RepN, ∀ p ∈ pwGaps r, p.2 ≤ 1 := by
  intro r
  unfold pwGaps
  induction r with
  | nil => intro p hp; simp [pwApply_nil] at hp
  | cons q rest ih =>
    obtain ⟨c, n⟩ := q
    cases rest with
    | nil =>
      intro p hp
      rw [pwApply_single] at hp
      simp at hp
      simp [hp]
    | cons q2 rest2 =>
      obtain ⟨d, m⟩ := q2
      intro p hp
      rw [pwApply_cons_cons] at hp
      rcases List.mem_cons.mp hp with h1 | h2
      · rw [h1]
        show gAll c n d ≤ 1
        unfold gAll
        exact Nat.min_le_right _ _
      · exact ih p h2

theorem pwApply_getLast_zero (g : Char → Nat → Char → Nat) :
    ∀ (r : RepN) (p : Char × Nat),
      (pwApply g (fun _ _ => 0) r).getLast? = some p → p.2 = 0 := by
  intro r
  induction r with
  | nil => intro p hp; simp [pwApply_nil] at hp
  | cons q rest ih =>
    obtain ⟨c, n⟩ := q
    cases rest with
    | nil =>
      intro p hp
      rw [pwApply_single] at hp
      rw [List.getLast?_singleton] at hp
      injection hp with h
      rw [← h]
    | cons q2 rest2 =>
      obtain ⟨d, m⟩ := q2
      intro p hp
      rw [pwApply_cons_cons] at hp
      cases hc2 : pwApply g (fun _ _ => 0) ((d, m) :: rest2) with
      | nil =>
        cases rest2 with
        | nil => rw [pwApply_single] at hc2; simp at hc2
        | cons q3 r3 =>
          obtain ⟨e, j⟩ := q3
          rw [pwApply_cons_cons] at hc2
          simp at hc2
      | cons y ys =>
        rw [hc2, List.getLast?_cons_cons, ← hc2] at hp
        exact ih p hp

theorem mem_bodyR : ∀ (r : RepN) (c : Char),
    c ∈ bodyR r → c = ' ' ∨ c ∈ r.map Prod.fst := by
  intro r
  induction r with
  | nil => intro c hc; simp [bodyR] at hc
  | cons p rest ih =>
    obtain ⟨d, n⟩ := p
    intro c hc
    rw [show bodyR ((d, n) :: rest) =
        d :: (List.replicate n ' ' ++ bodyR rest) from rfl] at hc
    rcases List.mem_cons.mp hc with h1 | h2
    · right; rw [h1]; simp
    · rcases List.mem_append.mp h2 with h3 | h4
      · left; exact List.eq_of_mem_replicate h3
      · rcases ih c h4 with h5 | h6
        · left; exact h5
        · right
          rw [List.map_cons]
          exact List.mem_cons_of_mem _ h6

theorem mem_fst_bodyR : ∀ (r : RepN) (c : Char),
    c ∈ r.map Prod.fst → c ∈ bodyR r := by
  intro r
  induction r with
  | nil => intro c hc; simp at hc
  | cons p rest ih =>
    obtain ⟨d, n⟩ := p
    intro c hc
    rw [List.map_cons] at hc
    rw [show bodyR ((d, n) :: rest) =
        d :: (List.replicate n ' ' ++ bodyR rest) from rfl]
    rcases List.mem_cons.mp hc with h1 | h2
    · rw [h1]; exact List.mem_cons_self _ _
    · exact List.mem_cons_of_mem _ (List.mem_append_right _ (ih c h2))

theorem bodyR_head_nonspace (r : RepN) (hv : validR r) (c : Char) (t : List Char)
    (h : bodyR r = c :: t) : pySpace c = false := by
  cases r with
  | nil => simp [bodyR] at h
  | cons p rest =>
    obtain ⟨d, n⟩ := p
    rw [show bodyR ((d, n) :: rest) =
        d :: (List.replicate n ' ' ++ bodyR rest) from rfl] at h
    have hd := hv (d, n) (List.mem_cons_self _ _)
    obtain ⟨h1, _⟩ := List.cons.inj h
    rw [← h1]
    exact hd

theorem lastCharR_cons_cons (p q : Char × Nat) (rest : RepN) :
    lastCharR (p :: q :: rest) = lastCharR (q :: rest) := by
  unfold lastCharR
  rw [List.map_cons, List.map_cons, List.getLast?_cons_cons, ← List.map_cons]

theorem lastCharR_ne_none (p : Char × Nat) (rest : RepN) :
    lastCharR (p :: rest) ≠ none := by
  unfold lastCharR
  rw [List.map_cons]
  intro h
  rw [List.getLast?_eq_none_iff] at h
  simp at h

theorem bodyR_getLast : ∀ r : RepN,
    (∀ p : Char × Nat, r.getLast? = some p → p.2 = 0) →
    (bodyR r).getLast? = lastCharR r := by
  intro r
  induction r with
  | nil => intro _; rfl
  | cons q rest ih =>
    obtain ⟨c, n⟩ := q
    cases rest with
    | nil =>
      intro h
      have hn : n = 0 := h (c, n) (by rw [List.getLast?_singleton])
      rw [hn]
      rfl
    | cons q2 rest2 =>
      obtain ⟨d, m⟩ := q2
      intro h
      have h2 : ∀ p : Char × Nat, ((d, m) :: rest2).getLast? = some p → p.2 = 0 := by
        intro p hp
        exact h p (by rw [List.getLast?_cons_cons]; exact hp)
      rw [show bodyR ((c, n) :: (d, m) :: rest2) =
          (c :: List.replicate n ' ') ++ bodyR ((d, m) :: rest2) from by
        simp [bodyR]]
      rw [List.getLast?_append, ih h2, lastCharR_cons_cons]
      cases hx : lastCharR ((d, m) :: rest2) with
      | none => exact absurd hx (lastCharR_ne_none _ _)
      | some x => rfl

theorem dropWhile_pySpace_replicate (n : Nat) (x : List Char) :
    List.dropWhile pySpace (List.replicate n ' ' ++ x) =
      List.dropWhile pySpace x := by
  induction n with
  | zero => simp
  | succ j ih =>
    rw [List.replicate_succ, List.cons_append, List.dropWhile_cons,
      if_pos (show pySpace ' ' = true from rfl)]
    exact ih

theorem lastNonWs_append_ne_none (x y : List Char) (h : lastNonWs y ≠ none) :
    lastNonWs (x ++ y) = lastNonWs y := by
  unfold lastNonWs at h ⊢
  rw [List.reverse_append, List.dropWhile_append]
  have h2 : ¬ (List.dropWhile pySpace y.reverse).isEmpty = true := by
    intro hemp
    rw [List.isEmpty_iff.mp hemp] at h
    exact h rfl
  rw [if_neg h2]
  cases hd : List.dropWhile pySpace y.reverse with
  | nil => rw [hd] at h2; simp at h2
  | cons a t => rw [List.cons_append]; rfl

theorem lastNonWs_bodyR : ∀ r : RepN, validR r →
    lastNonWs (bodyR r) = lastCharR r := by
  intro r
  induction r with
  | nil => intro _; rfl
  | cons q rest ih =>
    obtain ⟨c, n⟩ := q
    intro hv
    have hc : pySpace c = false := hv (c, n) (List.mem_cons_self _ _)
    have hvrest : validR rest := fun p hp => hv p (List.mem_cons_of_mem _ hp)
    cases rest with
    | nil =>
      unfold lastNonWs
      rw [show bodyR [(c, n)] = c :: List.replicate n ' ' from by simp [bodyR]]
      rw [show (c :: List.replicate n ' ').reverse =
          List.replicate n ' ' ++ [c] from by simp [List.reverse_replicate]]
      rw [dropWhile_pySpace_replicate, List.dropWhile_cons,
        if_neg (by simp [hc])]
      rfl
    | cons q2 rest2 =>
      rw [show bodyR ((c, n) :: q2 :: rest2) =
          (c :: List.replicate n ' ') ++ bodyR (q2 :: rest2) from by
        simp [bodyR]]
      have hne : lastNonWs (bodyR (q2 :: rest2)) ≠ none := by
        rw [ih hvrest]
        exact lastCharR_ne_none _ _
      rw [lastNonWs_append_ne_none _ _ hne, ih hvrest, lastCharR_cons_cons]

theorem dropWhile_map_eq (f : Char → Char)
    (hf : ∀ c, pySpace (f c) = pySpace c) :
    ∀ l : List Char,
      List.dropWhile pySpace (l.map f) = (List.dropWhile pySpace l).map f := by
  intro l
  induction l with
  | nil => rfl
  | cons c t ih =>
    rw [List.map_cons, List.dropWhile_cons, List.dropWhile_cons, hf c]
    by_cases hc : pySpace c = true
    · rw [if_pos hc, if_pos hc, ih]
    · rw [if_neg hc, if_neg hc, List.map_cons]

theorem lastNonWs_map (f : Char → Char) (hf : ∀ c, pySpace (f c) = pySpace c)
    (l : List Char) : lastNonWs (l.map f) = (lastNonWs l).map f := by
  unfold lastNonWs
  rw [← List.map_reverse, dropWhile_map_eq f hf, List.head?_map]

theorem slcAux_false_id : ∀ l : List Char, hasPair '-' '-' l = false →
    slcAux false l = l := by
  intro l
  induction l with
  | nil => intro _; rfl
  | cons c rest ih =>
    intro h
    cases rest with
    | nil => rfl
    | cons d rest2 =>
      have hne : ¬(c = '-' ∧ d = '-') := by
        rw [hasPair_cons_cons] at h
        have h1 := (Bool.or_eq_false_iff.mp h).1
        intro hcd
        rw [hcd.1, hcd.2] at h1
        simp at h1
      rw [show slcAux false (c :: d :: rest2) =
          (if c = '-' ∧ d = '-' then slcAux true rest2
           else c :: slcAux false (d :: rest2)) from rfl]
      rw [if_neg hne, ih (hasPair_tail_false _ _ _ _ h)]

theorem slcAux_true_shape : ∀ l : List Char,
    slcAux true l = [] ∨
      ∃ t : List Char, slcAux true l = '\n' :: slcAux false t := by
  intro l
  induction l with
  | nil => left; rfl
  | cons c rest ih =>
    rw [show slcAux true (c :: rest) =
        (if c = '\n' then '\n' :: slcAux false rest else slcAux true rest)
        from rfl]
    by_cases hc : c = '\n'
    · right; exact ⟨rest, by rw [if_pos hc]⟩
    · rw [if_neg hc]; exact ih

theorem slcAux_false_head (x : Char) (rest : List Char) :
    slcAux false (x :: rest) = [] ∨
    (∃ t, slcAux false (x :: rest) = x :: t) ∨
    (∃ t, slcAux false (x :: rest) = '\n' :: t) := by
  cases rest with
  | nil => right; left; exact ⟨[], rfl⟩
  | cons d rest2 =>
    rw [show slcAux false (x :: d :: rest2) =
        (if x = '-' ∧ d = '-' then slcAux true rest2
         else x :: slcAux false (d :: rest2)) from rfl]
    by_cases hx : x = '-' ∧ d = '-'
    · rw [if_pos hx]
      rcases slcAux_true_shape rest2 with h1 | ⟨t, h2⟩
      · left; exact h1
      · right; right; exact ⟨slcAux false t, h2⟩
    · rw [if_neg hx]; right; left; exact ⟨_, rfl⟩

theorem slcAux_noDD : ∀ N : Nat, ∀ l : List Char, l.length ≤ N →
    ∀ mode : Bool, hasPair '-' '-' (slcAux mode l) = false := by
  intro N
  induction N with
  | zero =>
    intro l hlen mode
    rw [List.length_eq_zero.mp (Nat.le_zero.mp hlen)]
    cases mode <;> rfl
  | succ N ih =>
    intro l hlen mode
    cases l with
    | nil => cases mode <;> rfl
    | cons c rest =>
      have hrest : rest.length ≤ N := by
        simp only [List.length_cons] at hlen; omega
      cases mode with
      | true =>
        rw [show slcAux true (c :: rest) =
            (if c = '\n' then '\n' :: slcAux false rest else slcAux true rest)
            from rfl]
        by_cases hc : c = '\n'
        · rw [if_pos hc]
          have h1 := ih rest hrest false
          cases hX : slcAux false rest with
          | nil => rfl
          | cons w ws =>
            rw [hX] at h1
            rw [hasPair_cons_cons, h1]
            simp
        · rw [if_neg hc]; exact ih rest hrest true
      | false =>
        cases rest with
        | nil => rfl
        | cons d rest2 =>
          have hrest2 : rest2.length ≤ N := by
            simp only [List.length_cons] at hlen; omega
          rw [show slcAux false (c :: d :: rest2) =
              (if c = '-' ∧ d = '-' then slcAux true rest2
               else c :: slcAux false (d :: rest2)) from rfl]
          by_cases hcd : c = '-' ∧ d = '-'
          · rw [if_pos hcd]; exact ih rest2 hrest2 true
          · rw [if_neg hcd]
            have hX := ih (d :: rest2) hrest false
            rcases slcAux_false_head d rest2 with h1 | ⟨t, h2⟩ | ⟨t, h2⟩
            · rw [h1]; rfl
            · rw [h2] at hX ⊢
              rw [hasPair_cons_cons, hX]
              have hdd : (decide (c = '-') && decide (d = '-')) = false := by
                by_cases h3 : c = '-'
                · by_cases h4 : d = '-'
                  · exact absurd ⟨h3, h4⟩ hcd
                  · simp [h4]
                · simp [h3]
              simp [hdd]
            · rw [h2] at hX ⊢
              rw [hasPair_cons_cons, hX]
              simp

theorem slcAux_noPair (a b : Char) (ha : a ≠ '\n') (hb : b ≠ '\n') :
    ∀ N : Nat, ∀ l : List Char, l.length ≤ N → ∀ mode : Bool,
      hasPair a b l = false → hasPair a b (slcAux mode l) = false := by
  intro N
  induction N with
  | zero =>
    intro l hlen mode _
    rw [List.length_eq_zero.mp (Nat.le_zero.mp hlen)]
    cases mode <;> rfl
  | succ N ih =>
    intro l hlen mode h
    cases l with
    | nil => cases mode <;> rfl
    | cons c rest =>
      have hrest : rest.length ≤ N := by
        simp only [List.length_cons] at hlen; omega
      have hr : hasPair a b rest = false := hasPair_tail_false _ _ _ _ h
      cases mode with
      | true =>
        rw [show slcAux true (c :: rest) =
            (if c = '\n' then '\n' :: slcAux false rest else slcAux true rest)
            from rfl]
        by_cases hc : c = '\n'
        · rw [if_pos hc]
          have h1 := ih rest hrest false hr
          cases hX : slcAux false rest with
          | nil => rfl
          | cons w ws =>
            rw [hX] at h1
            rw [hasPair_cons_cons, h1]
            have hna : decide ('\n' = a) = false := by
              simp only [decide_eq_false_iff_not]
              intro hh
              exact ha hh.symm
            simp [hna]
        · rw [if_neg hc]; exact ih rest hrest true hr
      | false =>
        cases rest with
        | nil => rfl
        | cons d rest2 =>
          have hrest2 : rest2.length ≤ N := by
            simp only [List.length_cons] at hlen; omega
          rw [show slcAux false (c :: d :: rest2) =
              (if c = '-' ∧ d = '-' then slcAux true rest2
               else c :: slcAux false (d :: rest2)) from rfl]
          by_cases hcd : c = '-' ∧ d = '-'
          · rw [if_pos hcd]
            exact ih rest2 hrest2 true (hasPair_tail_false _ _ _ _ hr)
          · rw [if_neg hcd]
            have hX := ih (d :: rest2) hrest false hr
            rcases slcAux_false_head d rest2 with h1 | ⟨t, h2⟩ | ⟨t, h2⟩
            · rw [h1]; rfl
            · rw [h2] at hX ⊢
              rw [hasPair_cons_cons, hX]
              have hcb : (decide (c = a) && decide (d = b)) = false := by
                rw [hasPair_cons_cons] at h
                exact (Bool.or_eq_false_iff.mp h).1
              simp [hcb]
            · rw [h2] at hX ⊢
              rw [hasPair_cons_cons, hX]
              have hnb : decide ('\n' = b) = false := by
                simp only [decide_eq_false_iff_not]
                intro hh
                exact hb hh.symm
              simp [hnb]

theorem bsAux_false_id : ∀ l : List Char, hasPair '/' '*' l = false →
    bsAux false l = l := by
  intro l
  induction l with
  | nil => intro _; rfl
  | cons c rest ih =>
    intro h
    cases rest with
    | nil => rfl
    | cons d rest2 =>
      have hne : ¬(c = '/' ∧ d = '*') := by
        rw [hasPair_cons_cons] at h
        have h1 := (Bool.or_eq_false_iff.mp h).1
        intro hcd
        rw [hcd.1, hcd.2] at h1
        simp at h1
      rw [show bsAux false (c :: d :: rest2) =
          (if c = '/' ∧ d = '*' then
            (if hasClose rest2 then bsAux true rest2 else c :: d :: rest2)
          else c :: bsAux false (d :: rest2)) from rfl]
      rw [if_neg hne, ih (hasPair_tail_false _ _ _ _ h)]

theorem collapseWs_mem : ∀ (l : List Char) (c : Char), c ∈ collapseWs l →
    c = ' ' ∨ (c ∈ l ∧ pySpace c = false) := by
  intro l
  induction l with
  | nil => intro c hc; simp [collapseWs] at hc
  | cons a rest ih =>
    intro c hc
    cases rest with
    | nil =>
      rw [show collapseWs [a] = (if pySpace a then [' '] else [a]) from rfl] at hc
      by_cases ha : pySpace a
      · rw [if_pos ha] at hc
        left
        simpa using hc
      · rw [if_neg ha] at hc
        right
        have hca : c = a := by simpa using hc
        rw [hca]
        exact ⟨List.mem_cons_self _ _, by simpa using ha⟩
    | cons b rest2 =>
      rw [show collapseWs (a :: b :: rest2) =
          (if pySpace a then
            (if pySpace b then collapseWs (b :: rest2)
             else ' ' :: collapseWs (b :: rest2))
          else a :: collapseWs (b :: rest2)) from rfl] at hc
      by_cases ha : pySpace a
      · by_cases hb2 : pySpace b
        · rw [if_pos ha, if_pos hb2] at hc
          rcases ih c hc with h1 | ⟨h2, h3⟩
          · left; exact h1
          · right; exact ⟨List.mem_cons_of_mem _ h2, h3⟩
        · rw [if_pos ha, if_neg hb2] at hc
          rcases List.mem_cons.mp hc with h1 | h2
          · left; exact h1
          · rcases ih c h2 with h3 | ⟨h4, h5⟩
            · left; exact h3
            · right; exact ⟨List.mem_cons_of_mem _ h4, h5⟩
      · rw [if_neg ha] at hc
        rcases List.mem_cons.mp hc with h1 | h2
        · right
          rw [h1]
          exact ⟨List.mem_cons_self _ _, by simpa using ha⟩
        · rcases ih c h2 with h3 | ⟨h4, h5⟩
          · left; exact h3
          · right; exact ⟨List.mem_cons_of_mem _ h4, h5⟩

theorem onlySp_collapseWs (l : List Char) : onlySp (collapseWs l) := by
  intro c hc hsp
  rcases collapseWs_mem l c hc with h1 | ⟨_, h2⟩
  · exact h1
  · rw [hsp] at h2; cases h2

theorem collapseWs_head_shape : ∀ (rest : List Char) (y : Char),
    collapseWs (y :: rest) = [] ∨
    (∃ t, collapseWs (y :: rest) = ' ' :: t) ∨
    (∃ t, collapseWs (y :: rest) = y :: t ∧ pySpace y = false) := by
  intro rest
  induction rest with
  | nil =>
    intro y
    rw [show collapseWs [y] = (if pySpace y then [' '] else [y]) from rfl]
    by_cases hy : pySpace y
    · right; left; exact ⟨[], by rw [if_pos hy]⟩
    · right; right; exact ⟨[], by rw [if_neg hy], by simpa using hy⟩
  | cons z rest2 ih =>
    intro y
    rw [show collapseWs (y :: z :: rest2) =
        (if pySpace y then
          (if pySpace z then collapseWs (z :: rest2)
           else ' ' :: collapseWs (z :: rest2))
        else y :: collapseWs (z :: rest2)) from rfl]
    by_cases hy : pySpace y
    · by_cases hz : pySpace z
      · rw [if_pos hy, if_pos hz]
        rcases ih z with h1 | ⟨t, h2⟩ | ⟨t, h2, h3⟩
        · left; exact h1
        · right; left; exact ⟨t, h2⟩
        · rw [hz] at h3; cases h3
      · rw [if_pos hy, if_neg hz]
        right; left
        exact ⟨collapseWs (z :: rest2), rfl⟩
    · rw [if_neg hy]
      right; right
      exact ⟨collapseWs (z :: rest2), rfl, by simpa using hy⟩

theorem collapseWs_noPair (a b : Char) (ha : pySpace a = false)
    (hb : pySpace b = false) :
    ∀ l : List Char, hasPair a b l = false →
      hasPair a b (collapseWs l) = false := by
  have hsa : decide (' ' = a) = false := by
    simp only [decide_eq_false_iff_not]
    intro hh
    rw [← hh] at ha
    simp [pySpace] at ha
  have hsb : decide (' ' = b) = false := by
    simp only [decide_eq_false_iff_not]
    intro hh
    rw [← hh] at hb
    simp [pySpace] at hb
  intro l
  induction l with
  | nil => intro _; rfl
  | cons c rest ih =>
    intro h
    cases rest with
    | nil =>
      rw [show collapseWs [c] = (if pySpace c then [' '] else [c]) from rfl]
      by_cases hc : pySpace c
      · rw [if_pos hc]; rfl
      · rw [if_neg hc]; rfl
    | cons d rest2 =>
      have hr : hasPair a b (d :: rest2) = false := hasPair_tail_false _ _ _ _ h
      have hX := ih hr
      rw [show collapseWs (c :: d :: rest2) =
          (if pySpace c then
            (if pySpace d then collapseWs (d :: rest2)
             else ' ' :: collapseWs (d :: rest2))
          else c :: collapseWs (d :: rest2)) from rfl]
      by_cases hc : pySpace c
      · by_cases hd : pySpace d
        · rw [if_pos hc, if_pos hd]; exact hX
        · rw [if_pos hc, if_neg hd]
          cases hY : collapseWs (d :: rest2) with
          | nil => rfl
          | cons w ws =>
            rw [hY] at hX
            rw [hasPair_cons_cons, hX]
            simp [hsa]
      · rw [if_neg hc]
        rcases collapseWs_head_shape rest2 d with h1 | ⟨t, h2⟩ | ⟨t, h2, _⟩
        · rw [h1]; rfl
        · rw [h2] at hX ⊢
          rw [hasPair_cons_cons, hX]
          simp [hsb]
        · rw [h2] at hX ⊢
          rw [hasPair_cons_cons, hX]
          have hcb : (decide (c = a) && decide (d = b)) = false := by
            rw [hasPair_cons_cons] at h
            exact (Bool.or_eq_false_iff.mp h).1
          simp [hcb]

theorem rstripWs_prefixOf (l : List Char) : rstripWs l <+: l := by
  have h := List.reverse_prefix.mpr
    (List.dropWhile_suffix (l := l.reverse) pySpace)
  rwa [List.reverse_reverse] at h

theorem rstripSemi_prefixOf (l : List Char) : rstripSemi l <+: l := by
  have h := List.reverse_prefix.mpr
    (List.dropWhile_suffix (l := l.reverse) (fun c => c = ';'))
  rwa [List.reverse_reverse] at h

theorem hasPair_false_prefix (a b : Char) (x l : List Char) (hp : x <+: l)
    (h : hasPair a b l = false) : hasPair a b x = false := by
  obtain ⟨t, ht⟩ := hp
  exact hasPair_append_false_left a b x t (by rw [ht]; exact h)

theorem hasPair_false_suffix (a b : Char) (x l : List Char) (hp : x <:+ l)
    (h : hasPair a b l = false) : hasPair a b x = false := by
  obtain ⟨t, ht⟩ := hp
  exact hasPair_append_false_right a b t x (by rw [ht]; exact h)

theorem hasPair_map_false (f : Char → Char) (a b : Char)
    (hfa : ∀ x, f x = a → x = a) (hfb : ∀ x, f x = b → x = b) :
    ∀ l : List Char, hasPair a b l = false → hasPair a b (l.map f) = false := by
  intro l
  induction l with
  | nil => intro _; rfl
  | cons c rest ih =>
    intro h
    cases rest with
    | nil => rfl
    | cons d rest2 =>
      rw [List.map_cons, List.map_cons, hasPair_cons_cons]
      have htail := ih (hasPair_tail_false _ _ _ _ h)
      rw [List.map_cons] at htail
      rw [htail]
      have hhead : (decide (f c = a) && decide (f d = b)) = false := by
        rw [hasPair_cons_cons] at h
        have h1 := (Bool.or_eq_false_iff.mp h).1
        by_cases h2 : f c = a
        · by_cases h3 : f d = b
          · rw [hfa c h2, hfb d h3] at h1
            simp at h1
          · simp [h3]
        · simp [h2]
      simp [hhead]

theorem qf_pySpace (c : Char) :
    pySpace (if c = '"' then '\'' else c) = pySpace c := by
  by_cases hc : c = '"'
  · rw [if_pos hc, hc]; decide
  · rw [if_neg hc]

theorem qf_faithful (x : Char) (hx : x ≠ '\'') (c : Char)
    (h : (if c = '"' then '\'' else c) = x) : c = x := by
  by_cases hc : c = '"'
  · rw [if_pos hc] at h
    exact absurd h.symm hx
  · rw [if_neg hc] at h
    exact h

theorem mem_unifyQuotes_ne_quote (l : List Char) (c : Char)
    (h : c ∈ unifyQuotes l) : c ≠ '"' := by
  unfold unifyQuotes at h
  obtain ⟨c0, _, hc0⟩ := List.mem_map.mp h
  intro hq
  rw [hq] at hc0
  by_cases h0 : c0 = '"'
  · rw [if_pos h0] at hc0
    exact absurd hc0 (by decide)
  · rw [if_neg h0] at hc0
    exact h0 hc0

theorem unifyQuotes_id (l : List Char) (h : '"' ∉ l) : unifyQuotes l = l := by
  unfold unifyQuotes
  rw [show l.map (fun c => if c = '"' then '\'' else c) = l.map id from
    List.map_congr_left (fun c hc => by
      rw [if_neg (fun he => h (by rw [← he]; exact hc))]
      rfl)]
  exact List.map_id l

theorem map_pyLowerCh_id (l : List Char) (h : allLowered l) :
    l.map pyLowerCh = l := by
  rw [show l.map pyLowerCh = l.map id from
    List.map_congr_left (fun c hc => by rw [h c hc]; rfl)]
  exact List.map_id l

theorem lstripWs_id (l : List Char)
    (h : ∀ c t, l = c :: t → pySpace c = false) : lstripWs l = l := by
  cases l with
  | nil => rfl
  | cons c t =>
    unfold lstripWs
    rw [List.dropWhile_cons, if_neg (by simp [h c t rfl])]

theorem rstripSemi_id (l : List Char) (h : l.getLast? ≠ some ';') :
    rstripSemi l = l := by
  unfold rstripSemi
  cases hr : l.reverse with
  | nil =>
    rw [List.dropWhile_nil, ← hr, List.reverse_reverse]
  | cons c t =>
    have hc : ¬(c = ';') := by
      intro hc
      apply h
      rw [← List.head?_reverse, hr, hc]
      rfl
    rw [List.dropWhile_cons, if_neg (by simp [hc]), ← hr, List.reverse_reverse]

theorem rstripWs_pwGaps (r : RepN) (hv : validR (pwGaps r)) :
    rstripWs (bodyR (pwGaps r)) = bodyR (pwGaps r) := by
  rw [rstripWs_bodyR _ hv]
  unfold pwGaps
  rw [pwApply_pwApply]

theorem collapseWs_pwGaps (r : RepN) (hv : validR (pwGaps r)) :
    collapseWs (bodyR (pwGaps r)) = bodyR (pwGaps r) := by
  have h0 : ofRepN 0 (pwGaps r) = bodyR (pwGaps r) := by
    rw [ofRepN_eq, List.replicate_zero, List.nil_append]
  rw [← h0, collapseWs_sim _ hv 0]
  rw [show (pwGaps r).map (fun p => (p.1, min p.2 1)) = (pwGaps r).map id from
    List.map_congr_left (fun p hp => by
      rw [Nat.min_eq_left (pwGaps_gap_le1 r p hp)]
      rfl)]
  rw [List.map_id]
  rw [show min 0 1 = 0 from rfl]

theorem mem_slcAux : ∀ N : Nat, ∀ l : List Char, l.length ≤ N → ∀ mode : Bool,
    ∀ c : Char, c ∈ slcAux mode l → c ∈ l := by
  intro N
  induction N with
  | zero =>
    intro l hlen mode c hc
    rw [List.length_eq_zero.mp (Nat.le_zero.mp hlen)] at hc ⊢
    rw [show slcAux mode [] = [] from by cases mode <;> rfl] at hc
    exact hc
  | succ N ih =>
    intro l hlen mode c hc
    cases l with
    | nil =>
      rw [show slcAux mode [] = [] from by cases mode <;> rfl] at hc
      exact hc
    | cons a rest =>
      have hrest : rest.length ≤ N := by
        simp only [List.length_cons] at hlen; omega
      cases mode with
      | true =>
        rw [show slcAux true (a :: rest) =
            (if a = '\n' then '\n' :: slcAux false rest else slcAux true rest)
            from rfl] at hc
        by_cases ha : a = '\n'
        · rw [if_pos ha] at hc
          rcases List.mem_cons.mp hc with h1 | h2
          · rw [h1, ← ha]
            exact List.mem_cons_self _ _
          · exact List.mem_cons_of_mem _ (ih rest hrest false c h2)
        · rw [if_neg ha] at hc
          exact List.mem_cons_of_mem _ (ih rest hrest true c hc)
      | false =>
        cases rest with
        | nil =>
          rw [show slcAux false [a] = [a] from rfl] at hc
          exact hc
        | cons d rest2 =>
          have hrest2 : rest2.length ≤ N := by
            simp only [List.length_cons] at hlen; omega
          rw [show slcAux false (a :: d :: rest2) =
              (if a = '-' ∧ d = '-' then slcAux true rest2
               else a :: slcAux false (d :: rest2)) from rfl] at hc
          by_cases had : a = '-' ∧ d = '-'
          · rw [if_pos had] at hc
            exact List.mem_cons_of_mem _
              (List.mem_cons_of_mem _ (ih rest2 hrest2 true c hc))
          · rw [if_neg had] at hc
            rcases List.mem_cons.mp hc with h1 | h2
            · rw [h1]; exact List.mem_cons_self _ _
            · exact List.mem_cons_of_mem _ (ih (d :: rest2) hrest false c h2)

theorem slc_noBO (l : List Char) (h1 : hasPair '/' '*' l = false) :
    hasPair '/' '*' (stripLineComments (l.map pyLowerCh)) = false := by
  have hL : hasPair '/' '*' (l.map pyLowerCh) = false :=
    hasPair_map_false pyLowerCh '/' '*'
      (pyLowerCh_eq_nonletter '/' (by decide))
      (pyLowerCh_eq_nonletter '*' (by decide)) l h1
  exact slcAux_noPair '/' '*' (by decide) (by decide)
    (l.map pyLowerCh).length _ le_rfl false hL

theorem semiStage_bstrip_id (l : List Char) (h1 : hasPair '/' '*' l = false) :
    stripBlockComments (stripLineComments (l.map pyLowerCh)) =
      stripLineComments (l.map pyLowerCh) :=
  bsAux_false_id _ (slc_noBO l h1)

theorem semiStage_onlySp (l : List Char) : onlySp (unifyQuotes (semiStage l)) := by
  intro c hc hcsp
  obtain ⟨c0, hc0mem, hc0⟩ := List.mem_map.mp hc
  have hsp0 : pySpace c0 = true := by rw [← qf_pySpace c0, hc0]; exact hcsp
  have hmem1 : c0 ∈ pyStripWs (collapseWs (stripBlockComments
      (stripLineComments (l.map pyLowerCh)))) :=
    ((rstripSemi_prefixOf _).sublist).mem hc0mem
  have hmem2 : c0 ∈ collapseWs (stripBlockComments
      (stripLineComments (l.map pyLowerCh))) :=
    (List.dropWhile_sublist _).mem (((rstripWs_prefixOf _).sublist).mem hmem1)
  have h0 : c0 = ' ' := onlySp_collapseWs _ c0 hmem2 hsp0
  rw [← hc0, h0]
  decide

theorem semiStage_head (l : List Char) :
    ∀ c t, unifyQuotes (semiStage l) = c :: t → pySpace c = false := by
  intro c t hct
  cases hw : semiStage l with
  | nil =>
    rw [hw] at hct
    simp [unifyQuotes] at hct
  | cons c0 t0 =>
    rw [hw] at hct
    unfold unifyQuotes at hct
    rw [List.map_cons] at hct
    obtain ⟨hc0, _⟩ := List.cons.inj hct
    obtain ⟨sfx, hsfx⟩ := rstripSemi_prefixOf (pyStripWs (collapseWs
      (stripBlockComments (stripLineComments (l.map pyLowerCh)))))
    obtain ⟨sfx2, hsfx2⟩ := rstripWs_prefixOf (lstripWs (collapseWs
      (stripBlockComments (stripLineComments (l.map pyLowerCh)))))
    have hsfx2b : rstripSemi (pyStripWs (collapseWs (stripBlockComments
        (stripLineComments (l.map pyLowerCh))))) ++ sfx =
        rstripWs (lstripWs (collapseWs (stripBlockComments
          (stripLineComments (l.map pyLowerCh))))) := hsfx
    have hst : rstripWs (lstripWs (collapseWs (stripBlockComments
        (stripLineComments (l.map pyLowerCh))))) = (c0 :: t0) ++ sfx := by
      rw [← hsfx2b]
      congr 1
    have hls : lstripWs (collapseWs (stripBlockComments
        (stripLineComments (l.map pyLowerCh)))) = c0 :: (t0 ++ sfx ++ sfx2) := by
      rw [← hsfx2, hst]
      simp
    have h0 : pySpace c0 = false := dropWhile_head_not pySpace _ c0 _ hls
    rw [← hc0, qf_pySpace]
    exact h0

theorem semiStage_noDD (l : List Char) (h1 : hasPair '/' '*' l = false) :
    hasPair '-' '-' (unifyQuotes (semiStage l)) = false := by
  have hA_DD : hasPair '-' '-' (stripLineComments (l.map pyLowerCh)) = false :=
    slcAux_noDD (l.map pyLowerCh).length _ le_rfl false
  have hX_DD : hasPair '-' '-' (collapseWs (stripBlockComments
      (stripLineComments (l.map pyLowerCh)))) = false := by
    rw [semiStage_bstrip_id l h1]
    exact collapseWs_noPair '-' '-' (by decide) (by decide) _ hA_DD
  have hst : hasPair '-' '-' (pyStripWs (collapseWs (stripBlockComments
      (stripLineComments (l.map pyLowerCh))))) = false := by
    unfold pyStripWs
    exact hasPair_false_prefix _ _ _ _ (rstripWs_prefixOf _)
      (hasPair_false_suffix _ _ _ _ (List.dropWhile_suffix pySpace) hX_DD)
  have hw : hasPair '-' '-' (semiStage l) = false :=
    hasPair_false_prefix _ _ _ _ (rstripSemi_prefixOf _) hst
  exact hasPair_map_false _ '-' '-'
    (qf_faithful '-' (by decide)) (qf_faithful '-' (by decide)) _ hw

theorem semiStage_noBO (l : List Char) (h1 : hasPair '/' '*' l = false) :
    hasPair '/' '*' (unifyQuotes (semiStage l)) = false := by
  have hX_BO : hasPair '/' '*' (collapseWs (stripBlockComments
      (stripLineComments (l.map pyLowerCh)))) = false := by
    rw [semiStage_bstrip_id l h1]
    exact collapseWs_noPair '/' '*' (by decide) (by decide) _ (slc_noBO l h1)
  have hst : hasPair '/' '*' (pyStripWs (collapseWs (stripBlockComments
      (stripLineComments (l.map pyLowerCh))))) = false := by
    unfold pyStripWs
    exact hasPair_false_prefix _ _ _ _ (rstripWs_prefixOf _)
      (hasPair_false_suffix _ _ _ _ (List.dropWhile_suffix pySpace) hX_BO)
  have hw : hasPair '/' '*' (semiStage l) = false :=
    hasPair_false_prefix _ _ _ _ (rstripSemi_prefixOf _) hst
  exact hasPair_map_false _ '/' '*'
    (qf_faithful '/' (by decide)) (qf_faithful '*' (by decide)) _ hw

theorem semiStage_lowered (l : List Char) (h1 : hasPair '/' '*' l = false) :
    allLowered (unifyQuotes (semiStage l)) := by
  have hL : allLowered (l.map pyLowerCh) := by
    intro c hc
    obtain ⟨c0, _, hc0⟩ := List.mem_map.mp hc
    rw [← hc0]
    exact pyLowerCh_idem c0
  have hA : allLowered (stripLineComments (l.map pyLowerCh)) := fun c hc =>
    hL c (mem_slcAux (l.map pyLowerCh).length _ le_rfl false c hc)
  have hX : allLowered (collapseWs (stripBlockComments
      (stripLineComments (l.map pyLowerCh)))) := by
    rw [semiStage_bstrip_id l h1]
    intro c hc
    rcases collapseWs_mem _ c hc with hsp | ⟨hmem, _⟩
    · rw [hsp]; decide
    · exact hA c hmem
  have hst : allLowered (pyStripWs (collapseWs (stripBlockComments
      (stripLineComments (l.map pyLowerCh))))) := fun c hc =>
    hX c ((List.dropWhile_sublist _).mem (((rstripWs_prefixOf _).sublist).mem hc))
  have hw : allLowered (semiStage l) := fun c hc =>
    hst c (((rstripSemi_prefixOf _).sublist).mem hc)
  intro c hc
  obtain ⟨c0, hc0mem, hc0⟩ := List.mem_map.mp hc
  by_cases h0 : c0 = '"'
  · rw [← hc0, h0]
    decide
  · rw [← hc0, if_neg h0]
    exact hw c0 hc0mem

theorem semiStage_noquote (l : List Char) : '"' ∉ unifyQuotes (semiStage l) :=
  fun h => mem_unifyQuotes_ne_quote _ _ h rfl

theorem semiStage_last (l : List Char) (h2 : lastNonWs (semiStage l) ≠ some ';') :
    lastNonWs (unifyQuotes (semiStage l)) ≠ some ';' := by
  rw [show unifyQuotes (semiStage l) =
      (semiStage l).map (fun c => if c = '"' then '\'' else c) from rfl]
  rw [lastNonWs_map _ qf_pySpace]
  intro hcon
  obtain ⟨x, hx1, hx2⟩ := Option.map_eq_some'.mp hcon
  have hx3 : x = ';' := qf_faithful ';' (by decide) x hx2
  rw [hx3] at hx1
  exact h2 hx1

theorem normalizeList_pass1 (l : List Char) :
    normalizeList l = bodyR (pwGaps (toRep (unifyQuotes (semiStage l)))) := by
  obtain ⟨hbody, hval⟩ := toRep_roundtrip (unifyQuotes (semiStage l))
    (semiStage_onlySp l) (semiStage_head l)
  have hu : ofRepN 0 (toRep (unifyQuotes (semiStage l))) =
      unifyQuotes (semiStage l) := by
    rw [ofRepN_eq, List.replicate_zero, List.nil_append, hbody]
  calc normalizeList l
      = pyStripWs (finalClean (parenRSpacing (parenLSpacing (commaSpacing
          (opSpacing (ofRepN 0 (toRep (unifyQuotes (semiStage l))))))))) := by
        rw [hu]
        rfl
    _ = bodyR (pwGaps (toRep (unifyQuotes (semiStage l)))) :=
        spacing_pipe_sim _ hval 0

theorem normalizeList_pass2_fixed (u : List Char)
    (hsp : onlySp u) (hhead : ∀ c t, u = c :: t → pySpace c = false)
    (hDD : hasPair '-' '-' u = false) (hBO : hasPair '/' '*' u = false)
    (hlow : allLowered u) (hq : '"' ∉ u) (hlast : lastNonWs u ≠ some ';') :
    normalizeList (bodyR (pwGaps (toRep u))) = bodyR (pwGaps (toRep u)) := by
  obtain ⟨hbody, hval⟩ := toRep_roundtrip u hsp hhead
  have hvP : validR (pwGaps (toRep u)) := validR_pwApply _ _ _ hval
  have hmemu : ∀ c : Char, c ∈ bodyR (pwGaps (toRep u)) → c = ' ' ∨ c ∈ u := by
    intro c hc
    rcases mem_bodyR _ c hc with h1 | h2
    · left; exact h1
    · right
      have h3 : c ∈ (toRep u).map Prod.fst := by
        unfold pwGaps at h2
        rwa [pwApply_map_fst] at h2
      have h4 : c ∈ bodyR (toRep u) := mem_fst_bodyR _ c h3
      rwa [hbody] at h4
  have f1 : (bodyR (pwGaps (toRep u))).map pyLowerCh =
      bodyR (pwGaps (toRep u)) := by
    apply map_pyLowerCh_id
    intro c hc
    rcases hmemu c hc with h1 | h2
    · rw [h1]; decide
    · exact hlow c h2
  have f2 : hasPair '-' '-' (bodyR (pwGaps (toRep u))) = false := by
    rw [hasPair_bodyR '-' '-' (by decide) (by decide) _ hvP,
      zeroPair_pwApply_gAll '-' '-' (by decide) (by decide) (by decide)
        (by decide) (by decide) (by decide) (by decide) (by decide) (toRep u),
      ← hasPair_bodyR '-' '-' (by decide) (by decide) _ hval, hbody]
    exact hDD
  have f3 : hasPair '/' '*' (bodyR (pwGaps (toRep u))) = false := by
    rw [hasPair_bodyR '/' '*' (by decide) (by decide) _ hvP,
      zeroPair_pwApply_gAll '/' '*' (by decide) (by decide) (by decide)
        (by decide) (by decide) (by decide) (by decide) (by decide) (toRep u),
      ← hasPair_bodyR '/' '*' (by decide) (by decide) _ hval, hbody]
    exact hBO
  have hslc : stripLineComments (bodyR (pwGaps (toRep u))) =
      bodyR (pwGaps (toRep u)) := slcAux_false_id _ f2
  have hbs : stripBlockComments (bodyR (pwGaps (toRep u))) =
      bodyR (pwGaps (toRep u)) := bsAux_false_id _ f3
  have f4 : collapseWs (bodyR (pwGaps (toRep u))) = bodyR (pwGaps (toRep u)) :=
    collapseWs_pwGaps _ hvP
  have hls : lstripWs (bodyR (pwGaps (toRep u))) = bodyR (pwGaps (toRep u)) :=
    lstripWs_id _ (fun c t h => bodyR_head_nonspace _ hvP c t h)
  have hstr : pyStripWs (bodyR (pwGaps (toRep u))) = bodyR (pwGaps (toRep u)) := by
    unfold pyStripWs
    rw [hls]
    exact rstripWs_pwGaps _ hvP
  have hgl : ∀ p : Char × Nat, (pwGaps (toRep u)).getLast? = some p → p.2 = 0 := by
    intro p hp
    exact pwApply_getLast_zero gAll (toRep u) p hp
  have f6 : rstripSemi (bodyR (pwGaps (toRep u))) = bodyR (pwGaps (toRep u)) := by
    apply rstripSemi_id
    rw [bodyR_getLast _ hgl]
    rw [show lastCharR (pwGaps (toRep u)) = lastCharR (toRep u) from by
      unfold lastCharR pwGaps
      rw [pwApply_map_fst]]
    rw [← lastNonWs_bodyR _ hval, hbody]
    exact hlast
  have f7 : unifyQuotes (bodyR (pwGaps (toRep u))) = bodyR (pwGaps (toRep u)) := by
    apply unifyQuotes_id
    intro hmem
    rcases hmemu '"' hmem with h1 | h2
    · exact absurd h1 (by decide)
    · exact hq h2
  have h00 : ofRepN 0 (pwGaps (toRep u)) = bodyR (pwGaps (toRep u)) := by
    rw [ofRepN_eq, List.replicate_zero, List.nil_append]
  calc normalizeList (bodyR (pwGaps (toRep u)))
      = pyStripWs (finalClean (parenRSpacing (parenLSpacing (commaSpacing
          (opSpacing (bodyR (pwGaps (toRep u)))))))) := by
        rw [show normalizeList (bodyR (pwGaps (toRep u))) =
            pyStripWs (finalClean (parenRSpacing (parenLSpacing (commaSpacing
              (opSpacing (unifyQuotes (rstripSemi (pyStripWs (collapseWs
                (stripBlockComments (stripLineComments ((bodyR (pwGaps
                  (toRep u))).map pyLowerCh)))))))))))) from rfl]
        rw [f1, hslc, hbs, f4, hstr, f6, f7]
    _ = pyStripWs (finalClean (parenRSpacing (parenLSpacing (commaSpacing
          (opSpacing (ofRepN 0 (pwGaps (toRep u)))))))) := by rw [h00]
    _ = bodyR (pwGaps (pwGaps (toRep u))) := spacing_pipe_sim _ hvP 0
    _ = bodyR (pwGaps (toRep u)) := by rw [pwGaps_idem]

/-- C1: `SQLNormalizer.normalize` is idempotent on every input that does not
contain the block-comment opener `/*` and whose comment-stripped,
whitespace-collapsed, stripped, semicolon-stripped intermediate does not
still end (up to trailing whitespace) in a semicolon.  On such inputs,
applying `normalize` twice gives the same result as applying it once. -/
theorem normalize_idempotent_restricted (s : String)
    (h1 : hasPair '/' '*' s.data = false)
    (h2 : lastNonWs (semiStage s.data) ≠ some ';') :
    SQLNormalizer.normalize (SQLNormalizer.normalize s) =
      SQLNormalizer.normalize s := by
  by_cases hs : s = ""
  · rw [hs]
    rfl
  · have hnorm : SQLNormalizer.normalize s = String.mk (normalizeList s.data) := by
      unfold SQLNormalizer.normalize
      rw [if_neg hs]
    rw [hnorm]
    by_cases hv : normalizeList s.data = []
    · rw [hv]
      rfl
    · have hne : String.mk (normalizeList s.data) ≠ "" := by
        intro he
        apply hv
        have h3 := congrArg String.data he
        simpa using h3
      rw [show SQLNormalizer.normalize (String.mk (normalizeList s.data)) =
          String.mk (normalizeList (normalizeList s.data)) from by
        unfold SQLNormalizer.normalize
        rw [if_neg hne]]
      rw [normalizeList_pass1 s.data]
      rw [normalizeList_pass2_fixed (unifyQuotes (semiStage s.data))
        (semiStage_onlySp s.data) (semiStage_head s.data)
        (semiStage_noDD s.data h1) (semiStage_noBO s.data h1)
        (semiStage_lowered s.data h1) (semiStage_noquote s.data)
        (semiStage_last s.data h2)]

/-- C1 counterexample: `normalize` is not idempotent in general.  Removing a
block comment can create a new `--` line comment: on the seven-character
input dash, slash, star, x, star, slash, dash, the first pass yields `"--"`,
which a second pass erases.  And stripping trailing semicolons before
whitespace is collapsed can leave a semicolon exposed at the end: on the
input `"a; ;"` the first pass yields `"a;"`, which a second pass strips
to `"a"`. -/
theorem normalize_not_idempotent :
    SQLNormalizer.normalize (SQLNormalizer.normalize "-/*x*/-") ≠
      SQLNormalizer.normalize "-/*x*/-" ∧
    SQLNormalizer.normalize (SQLNormalizer.normalize "a; ;") ≠
      SQLNormalizer.normalize "a; ;" := by
  constructor
  · decide
  · decide

/-- Witness for the amended C1 theorem at a concrete input. -/
theorem normalize_idempotent_restricted_witness :
    hasPair '/' '*' "SELECT  a ,b FROM t;".data = false ∧
    lastNonWs (semiStage "SELECT  a ,b FROM t;".data) ≠ some ';' ∧
    SQLNormalizer.normalize (SQLNormalizer.normalize "SELECT  a ,b FROM t;") =
      SQLNormalizer.normalize "SELECT  a ,b FROM t;" :=
  ⟨by decide, by decide,
    normalize_idempotent_restricted "SELECT  a ,b FROM t;" (by decide) (by decide)⟩

end NLSQL


/-- Witness for the amended C2 theorem: on a successful call the trace is
open-then-close. -/
theorem execute_sql_connection_events_witness :
    (ExecutionEvaluator.execute_sql execEnvOk "SELECT 1" "db").1 = true ∧
    (ExecutionEvaluator.execute_sqlTr execEnvOk "SELECT 1" "db").2 =
      [NLSQL.ConnEvent.opened, NLSQL.ConnEvent.closed] :=
  ⟨rfl, (execute_sql_connection_events execEnvOk "SELECT 1" "db").1 rfl⟩

/-- Witness for C3 at a concrete environment where both queries succeed. -/
theorem evaluate_three_way_contract_witness :
    (ExecutionEvaluator.execute_sql execEnvOk "g" "d").1 = true ∧
    (ExecutionEvaluator.execute_sql execEnvOk "p" "d").1 = true ∧
    (ExecutionEvaluator.evaluate execEnvOk "g" "p" "d").1 = true ∧
    (ExecutionEvaluator.evaluate execEnvOk "g" "p" "d").2.1 =
      some (ExecutionEvaluator.results_match
        (ExecutionEvaluator.execute_sql execEnvOk "g" "d").2.1
        (ExecutionEvaluator.execute_sql execEnvOk "p" "d").2.1) := by
  obtain ⟨h1, h2⟩ := (evaluate_three_way_contract execEnvOk "g" "p" "d").2.2 rfl rfl
  exact ⟨rfl, rfl, h1, h2⟩

/-- Witness for C4's conditional clause at the concrete ten-sample report. -/
theorem execution_accuracy_denominator_witness :
    sampleReportTen.results.countP (fun x => x.execution_match.isSome) ≠ 0 ∧
    sampleReportTen.execution_accuracy =
      (sampleReportTen.execution_match_count : ℚ) /
        (sampleReportTen.results.countP (fun x => x.execution_match.isSome) : ℚ) :=
  ⟨by decide, execution_accuracy_denominator.2.1 sampleReportTen (by decide)⟩

/-- Witness for C6 at a concrete failing pipeline. -/
theorem pipeline_failure_is_isolated_witness :
    (SpiderBenchmark.evaluateSample ⟨true, true, some "dbs"⟩ envPipeFail
      sampleEm {}).1.1.predicted_sql = "" ∧
    (SpiderBenchmark.evaluateSample ⟨true, true, some "dbs"⟩ envPipeFail
      sampleEm {}).1.1.exact_match = false ∧
    (SpiderBenchmark.evaluateSample ⟨true, true, some "dbs"⟩ envPipeFail
      sampleEm {}).1.1.is_valid_sql = false ∧
    (SpiderBenchmark.evaluateSample ⟨true, true, some "dbs"⟩ envPipeFail
      sampleEm {}).1.1.error = some "boom" ∧
    (SpiderBenchmark.evaluateSample ⟨true, true, some "dbs"⟩ envPipeFail
      sampleEm {}).1.2.error_count = ({} : BenchmarkReport).error_count + 1 := by
  obtain ⟨a, b, c, d, e, _⟩ := SpiderBenchmark.pipeline_failure_is_isolated
    ⟨true, true, some "dbs"⟩ envPipeFail sampleEm {} "boom" 5 rfl
  exact ⟨a, b, c, d, e⟩

/-- Witness for C7: an exact-match result skips the judge with the maximal
score. -/
theorem llm_judge_short_circuit_witness :
    (SpiderBenchmark.evaluateSample ⟨true, false, none⟩ envPipeOk
      sampleEm {}).2 = false ∧
    (SpiderBenchmark.evaluateSample ⟨true, false, none⟩ envPipeOk
      sampleEm {}).1.1.llm_judge_match = some true ∧
    (SpiderBenchmark.evaluateSample ⟨true, false, none⟩ envPipeOk
      sampleEm {}).1.1.llm_judge_score = 5 :=
  (SpiderBenchmark.llm_judge_short_circuit ⟨true, false, none⟩ envPipeOk
    sampleEm {} rfl).1 (by decide)

/-- Witness for C8 at the two-row permutation. -/
theorem normalize_results_row_order_independent_witness :
    ExecutionEvaluator.normalize_results (some [[some "a"], [some "b"]]) =
      ExecutionEvaluator.normalize_results (some [[some "b"], [some "a"]]) :=
  normalize_results_row_order_independent.1 [[some "a"], [some "b"]]
    [[some "b"], [some "a"]] (by decide)
